import Mathlib

/-!
Verification of the SisterSync task tracker core: the local task store with its
persistence debouncing, validation and migration of loaded and imported data,
the base64 sync-code codec, and the id generator.  All definitions are shallow
embeddings of the TypeScript source (App component and Dashboard component).
-/

namespace SisterSync

/-! ## Digit strings

`Number.prototype.toString(base)` and decimal interpolation are modelled by
`natToBase`, written with explicit fuel so that it is structurally recursive.
`fromDigits` is its inverse, used to prove injectivity of the printed form. -/

/-- The digit alphabet used by JavaScript `toString(base)`: `0`-`9` then `a`-`z`. -/
def digitChar (n : Nat) : Char :=
  if n < 10 then Char.ofNat (48 + n) else Char.ofNat (87 + n)

/-- Numeric value of a digit character, inverse to `digitChar`. -/
def digitVal (c : Char) : Nat :=
  if c.toNat ≥ 97 then c.toNat - 87 else c.toNat - 48

def natToBaseAux (b : Nat) : Nat → Nat → List Char
  | 0, _ => []
  | f + 1, n =>
    if n < b then [digitChar n]
    else natToBaseAux b f (n / b) ++ [digitChar (n % b)]

/-- `n.toString(b)` for a natural number `n`, most significant digit first. -/
def natToBase (b n : Nat) : List Char :=
  natToBaseAux b (n + 1) n

/-- Interpret a digit string in base `b`. -/
def fromDigits (b : Nat) (ds : List Char) : Nat :=
  ds.foldl (fun a c => a * b + digitVal c) 0

theorem fromDigits_append (b : Nat) (ds : List Char) (d : Char) :
    fromDigits b (ds ++ [d]) = fromDigits b ds * b + digitVal d := by
  simp [fromDigits]

theorem digitVal_digitChar {b n : Nat} (hb : b ≤ 36) (h : n < b) :
    digitVal (digitChar n) = n := by
  have h36 : n < 36 := lt_of_lt_of_le h hb
  interval_cases n <;> decide

theorem fromDigits_natToBaseAux {b : Nat} (hb2 : 2 ≤ b) (hb : b ≤ 36) :
    ∀ fuel n, n < fuel → fromDigits b (natToBaseAux b fuel n) = n := by
  intro fuel
  induction fuel with
  | zero => intro n h; omega
  | succ f ih =>
    intro n h
    rw [natToBaseAux]
    by_cases hn : n < b
    · simp [hn, fromDigits, digitVal_digitChar hb hn]
    · simp only [hn, if_false]
      have hdiv : n / b < n := Nat.div_lt_self (by omega) (by omega)
      have hmod := Nat.div_add_mod n b
      have hcomm : n / b * b = b * (n / b) := Nat.mul_comm _ _
      rw [fromDigits_append, ih (n / b) (by omega), digitVal_digitChar hb (Nat.mod_lt _ (by omega))]
      omega

theorem fromDigits_natToBase {b : Nat} (hb2 : 2 ≤ b) (hb : b ≤ 36) (n : Nat) :
    fromDigits b (natToBase b n) = n :=
  fromDigits_natToBaseAux hb2 hb (n + 1) n (by omega)

theorem natToBase_injective {b : Nat} (hb2 : 2 ≤ b) (hb : b ≤ 36) {m n : Nat}
    (h : natToBase b m = natToBase b n) : m = n := by
  have hm := fromDigits_natToBase hb2 hb m
  have hn := fromDigits_natToBase hb2 hb n
  rw [h] at hm; omega

/-- Every character printed by `digitChar` for a digit below 36 is a base-36
alphanumeric, in particular never a dash. -/
theorem digitChar_ne_dash {n : Nat} (h : n < 36) : digitChar n ≠ '-' := by
  interval_cases n <;> decide

theorem natToBaseAux_no_dash {b : Nat} (hb2 : 2 ≤ b) (hb : b ≤ 36) :
    ∀ fuel n, '-' ∉ natToBaseAux b fuel n := by
  intro fuel
  induction fuel with
  | zero => intro n; simp [natToBaseAux]
  | succ f ih =>
    intro n
    rw [natToBaseAux]
    by_cases hn : n < b
    · simp only [hn, if_true, List.mem_singleton]
      exact fun hc => digitChar_ne_dash (by omega) hc.symm
    · simp only [hn, if_false, List.mem_append, List.mem_singleton]
      have hmod := Nat.mod_lt n (show 0 < b by omega)
      rintro (hc | hc)
      · exact ih _ hc
      · exact digitChar_ne_dash (by omega) hc.symm

theorem natToBase_no_dash {b : Nat} (hb2 : 2 ≤ b) (hb : b ≤ 36) (n : Nat) :
    '-' ∉ natToBase b n :=
  natToBaseAux_no_dash hb2 hb (n + 1) n

/-! ## JavaScript string trimming

`String.prototype.trim` removes the ECMAScript WhiteSpace and LineTerminator
characters from both ends. -/

/-- The ECMAScript WhiteSpace / LineTerminator set used by `trim`. -/
def isJsWs (c : Char) : Bool :=
  let n := c.toNat
  n = 9 ∨ n = 10 ∨ n = 11 ∨ n = 12 ∨ n = 13 ∨ n = 32 ∨ n = 160 ∨ n = 5760 ∨
  (8192 ≤ n ∧ n ≤ 8202) ∨ n = 8232 ∨ n = 8233 ∨ n = 8239 ∨ n = 8287 ∨
  n = 12288 ∨ n = 65279

/-- `s.trim()` on the character list of a JavaScript string. -/
def jsTrim (s : List Char) : List Char :=
  ((s.dropWhile isJsWs).reverse.dropWhile isJsWs).reverse

theorem dropWhile_eq_self_of_forall {p : Char → Bool} {l : List Char}
    (h : ∀ c ∈ l, p c = false) : l.dropWhile p = l := by
  cases l with
  | nil => rfl
  | cons x xs => rw [List.dropWhile_cons, h x (by simp)]; simp

theorem jsTrim_eq_self {l : List Char} (h : ∀ c ∈ l, isJsWs c = false) :
    jsTrim l = l := by
  unfold jsTrim
  rw [dropWhile_eq_self_of_forall h,
    dropWhile_eq_self_of_forall (fun c hc => h c (List.mem_reverse.mp hc)), List.reverse_reverse]

/-! ## Hexadecimal digits -/

/-- Uppercase hexadecimal digit, as produced by `encodeURIComponent`. -/
def toHexChar (n : Nat) : Char :=
  if n < 10 then Char.ofNat (48 + n) else Char.ofNat (55 + n)

/-- Value of a hexadecimal digit character, either case. -/
def hexCharVal (c : Char) : Option Nat :=
  if 48 ≤ c.toNat ∧ c.toNat ≤ 57 then some (c.toNat - 48)
  else if 65 ≤ c.toNat ∧ c.toNat ≤ 70 then some (c.toNat - 55)
  else if 97 ≤ c.toNat ∧ c.toNat ≤ 102 then some (c.toNat - 87)
  else none

theorem hexCharVal_toHexChar {n : Nat} (h : n < 16) : hexCharVal (toHexChar n) = some n := by
  interval_cases n <;> decide

/-! ## encodeURIComponent / decodeURIComponent

`encodeURIComponent` leaves the RFC 2396 unreserved characters alone and
percent-escapes the UTF-8 bytes of every other character, using uppercase
hexadecimal.  `decodeURIComponent` reverses this: it first turns every
`%XX` group into a byte token, then reassembles contiguous byte tokens as
UTF-8, failing (a `URIError` in the browser) on any malformed escape or
invalid byte sequence. -/

/-- Characters `encodeURIComponent` leaves unescaped:
`A-Z a-z 0-9 - _ . ! ~ * ' ( )`. -/
def isUriUnreserved (c : Char) : Bool :=
  let n := c.toNat
  (65 ≤ n ∧ n ≤ 90) ∨ (97 ≤ n ∧ n ≤ 122) ∨ (48 ≤ n ∧ n ≤ 57) ∨
  n = 45 ∨ n = 95 ∨ n = 46 ∨ n = 33 ∨ n = 126 ∨ n = 42 ∨ n = 39 ∨ n = 40 ∨ n = 41

/-- UTF-8 byte sequence of a code point. -/
def utf8Bytes (n : Nat) : List Nat :=
  if n < 128 then [n]
  else if n < 2048 then [192 + n / 64, 128 + n % 64]
  else if n < 65536 then [224 + n / 4096, 128 + n / 64 % 64, 128 + n % 64]
  else [240 + n / 262144, 128 + n / 4096 % 64, 128 + n / 64 % 64, 128 + n % 64]

/-- The `%XX` escape of one byte, uppercase hexadecimal. -/
def pctByte (b : Nat) : List Char :=
  ['%', toHexChar (b / 16), toHexChar (b % 16)]

def encodeURIComponentChar (c : Char) : List Char :=
  if isUriUnreserved c then [c] else ((utf8Bytes c.toNat).map pctByte).flatten

def encodeURIComponent (s : List Char) : List Char :=
  (s.map encodeURIComponentChar).flatten

mutual

/-- First stage of `decodeURIComponent`: replace every `%XX` group by a byte
token, leaving other characters as character tokens. -/
def pctTokens : List Char → Option (List (Char ⊕ Nat))
  | [] => some []
  | c :: rest =>
    if c = '%' then pctTokensEsc rest
    else (pctTokens rest).map (Sum.inl c :: ·)

/-- Reads the two hexadecimal digits after a `%`. -/
def pctTokensEsc : List Char → Option (List (Char ⊕ Nat))
  | h :: l :: rest1 =>
    match hexCharVal h, hexCharVal l with
    | some hv, some lv => (pctTokens rest1).map (Sum.inr (hv * 16 + lv) :: ·)
    | _, _ => none
  | _ => none

end

mutual

/-- Second stage of `decodeURIComponent`: reassemble contiguous byte tokens as
UTF-8 code points; character tokens pass through.  Overlong encodings,
surrogates and out-of-range code points are rejected. -/
def utf8Assemble : List (Char ⊕ Nat) → Option (List Char)
  | [] => some []
  | Sum.inl c :: rest => (utf8Assemble rest).map (c :: ·)
  | Sum.inr b :: rest =>
    if b < 128 then (utf8Assemble rest).map (Char.ofNat b :: ·)
    else if b < 194 then none
    else if b < 224 then utf8Cont1 b rest
    else if b < 240 then utf8Cont2 b rest
    else if b < 245 then utf8Cont3 b rest
    else none

/-- One continuation byte of a two-byte UTF-8 sequence. -/
def utf8Cont1 (b : Nat) : List (Char ⊕ Nat) → Option (List Char)
  | Sum.inr b2 :: rest2 =>
    if 128 ≤ b2 ∧ b2 < 192 then
      (utf8Assemble rest2).map (Char.ofNat ((b - 192) * 64 + (b2 - 128)) :: ·)
    else none
  | _ => none

/-- Two continuation bytes of a three-byte UTF-8 sequence. -/
def utf8Cont2 (b : Nat) : List (Char ⊕ Nat) → Option (List Char)
  | Sum.inr b2 :: Sum.inr b3 :: rest3 =>
    if (128 ≤ b2 ∧ b2 < 192) ∧ (128 ≤ b3 ∧ b3 < 192) then
      if 2048 ≤ (b - 224) * 4096 + (b2 - 128) * 64 + (b3 - 128) ∧
          ((b - 224) * 4096 + (b2 - 128) * 64 + (b3 - 128) < 55296 ∨
            57344 ≤ (b - 224) * 4096 + (b2 - 128) * 64 + (b3 - 128)) then
        (utf8Assemble rest3).map
          (Char.ofNat ((b - 224) * 4096 + (b2 - 128) * 64 + (b3 - 128)) :: ·)
      else none
    else none
  | _ => none

/-- Three continuation bytes of a four-byte UTF-8 sequence. -/
def utf8Cont3 (b : Nat) : List (Char ⊕ Nat) → Option (List Char)
  | Sum.inr b2 :: Sum.inr b3 :: Sum.inr b4 :: rest4 =>
    if (128 ≤ b2 ∧ b2 < 192) ∧ (128 ≤ b3 ∧ b3 < 192) ∧ (128 ≤ b4 ∧ b4 < 192) then
      if 65536 ≤ (b - 240) * 262144 + (b2 - 128) * 4096 + (b3 - 128) * 64 + (b4 - 128) ∧
          (b - 240) * 262144 + (b2 - 128) * 4096 + (b3 - 128) * 64 + (b4 - 128) < 1114112 then
        (utf8Assemble rest4).map
          (Char.ofNat
            ((b - 240) * 262144 + (b2 - 128) * 4096 + (b3 - 128) * 64 + (b4 - 128)) :: ·)
      else none
    else none
  | _ => none

end

def decodeURIComponent (s : List Char) : Option (List Char) :=
  (pctTokens s).bind utf8Assemble

/-- Token sequence contributed by one source character of `encodeURIComponent`. -/
def uriTokens (c : Char) : List (Char ⊕ Nat) :=
  if isUriUnreserved c then [Sum.inl c] else (utf8Bytes c.toNat).map Sum.inr

theorem ne_pct_of_unreserved {c : Char} (h : isUriUnreserved c = true) : ¬ c = '%' := by
  intro hc
  subst hc
  simp [isUriUnreserved] at h

theorem pctTokens_cons (c : Char) (rest : List Char) (h : ¬ c = '%') :
    pctTokens (c :: rest) = (pctTokens rest).map (Sum.inl c :: ·) := by
  rw [pctTokens, if_neg h]

theorem pctTokens_pctByte {b : Nat} (hb : b < 256) (cs : List Char) :
    pctTokens (pctByte b ++ cs) = (pctTokens cs).map (Sum.inr b :: ·) := by
  have h1 : b / 16 < 16 := by omega
  have h2 : b % 16 < 16 := by omega
  have hb2 : b / 16 * 16 + b % 16 = b := by omega
  show pctTokens ('%' :: toHexChar (b / 16) :: toHexChar (b % 16) :: cs) = _
  rw [pctTokens, if_pos rfl, pctTokensEsc]
  simp only [hexCharVal_toHexChar h1, hexCharVal_toHexChar h2, hb2]

theorem pctTokens_encodeChar (c : Char) (cs : List Char) :
    pctTokens (encodeURIComponentChar c ++ cs) = (pctTokens cs).map (uriTokens c ++ ·) := by
  by_cases h : isUriUnreserved c = true
  · rw [encodeURIComponentChar, if_pos h, uriTokens, if_pos h]
    show pctTokens (c :: cs) = _
    rw [pctTokens_cons c cs (ne_pct_of_unreserved h)]
    cases pctTokens cs <;> rfl
  · rw [encodeURIComponentChar, if_neg h, uriTokens, if_neg h]
    have hv := c.valid
    simp only [Nat.isValidChar, UInt32.isValidChar] at hv
    have htn : c.toNat = c.val.toNat := rfl
    by_cases h1 : c.toNat < 128
    · have hbytes : utf8Bytes c.toNat = [c.toNat] := by rw [utf8Bytes, if_pos h1]
      rw [hbytes]
      simp only [List.map_cons, List.map_nil, List.flatten_cons, List.flatten_nil,
        List.append_nil]
      rw [pctTokens_pctByte (by omega)]
      cases pctTokens cs <;> rfl
    · by_cases h2 : c.toNat < 2048
      · have hbytes : utf8Bytes c.toNat = [192 + c.toNat / 64, 128 + c.toNat % 64] := by
          rw [utf8Bytes, if_neg h1, if_pos h2]
        rw [hbytes]
        simp only [List.map_cons, List.map_nil, List.flatten_cons, List.flatten_nil,
          List.append_nil, List.append_assoc]
        rw [pctTokens_pctByte (by omega), pctTokens_pctByte (by omega)]
        cases pctTokens cs <;> rfl
      · by_cases h3 : c.toNat < 65536
        · have hbytes : utf8Bytes c.toNat =
              [224 + c.toNat / 4096, 128 + c.toNat / 64 % 64, 128 + c.toNat % 64] := by
            rw [utf8Bytes, if_neg h1, if_neg h2, if_pos h3]
          rw [hbytes]
          simp only [List.map_cons, List.map_nil, List.flatten_cons, List.flatten_nil,
            List.append_nil, List.append_assoc]
          rw [pctTokens_pctByte (by omega), pctTokens_pctByte (by omega),
            pctTokens_pctByte (by omega)]
          cases pctTokens cs <;> rfl
        · have hbytes : utf8Bytes c.toNat =
              [240 + c.toNat / 262144, 128 + c.toNat / 4096 % 64,
                128 + c.toNat / 64 % 64, 128 + c.toNat % 64] := by
            rw [utf8Bytes, if_neg h1, if_neg h2, if_neg h3]
          rw [hbytes]
          simp only [List.map_cons, List.map_nil, List.flatten_cons, List.flatten_nil,
            List.append_nil, List.append_assoc]
          rw [pctTokens_pctByte (by omega), pctTokens_pctByte (by omega),
            pctTokens_pctByte (by omega), pctTokens_pctByte (by omega)]
          cases pctTokens cs <;> rfl

theorem utf8Assemble_uriTokens (c : Char) (ts : List (Char ⊕ Nat)) :
    utf8Assemble (uriTokens c ++ ts) = (utf8Assemble ts).map (c :: ·) := by
  by_cases h : isUriUnreserved c = true
  · rw [uriTokens, if_pos h]
    show utf8Assemble (Sum.inl c :: ts) = _
    rw [utf8Assemble]
  · rw [uriTokens, if_neg h]
    have hv := c.valid
    simp only [Nat.isValidChar, UInt32.isValidChar] at hv
    have htn : c.toNat = c.val.toNat := rfl
    by_cases h1 : c.toNat < 128
    · have hb : utf8Bytes c.toNat = [c.toNat] := by rw [utf8Bytes, if_pos h1]
      rw [hb]
      show utf8Assemble (Sum.inr c.toNat :: ts) = _
      rw [utf8Assemble, if_pos h1, Char.ofNat_toNat]
    · by_cases h2 : c.toNat < 2048
      · have hb : utf8Bytes c.toNat = [192 + c.toNat / 64, 128 + c.toNat % 64] := by
          rw [utf8Bytes, if_neg h1, if_pos h2]
        rw [hb]
        show utf8Assemble
          (Sum.inr (192 + c.toNat / 64) :: Sum.inr (128 + c.toNat % 64) :: ts) = _
        rw [utf8Assemble, if_neg (by omega), if_neg (by omega), if_pos (by omega),
          utf8Cont1, if_pos (by omega)]
        have hcp : (192 + c.toNat / 64 - 192) * 64 + (128 + c.toNat % 64 - 128) = c.toNat := by
          omega
        rw [hcp, Char.ofNat_toNat]
      · by_cases h3 : c.toNat < 65536
        · have hb : utf8Bytes c.toNat =
              [224 + c.toNat / 4096, 128 + c.toNat / 64 % 64, 128 + c.toNat % 64] := by
            rw [utf8Bytes, if_neg h1, if_neg h2, if_pos h3]
          rw [hb]
          show utf8Assemble (Sum.inr (224 + c.toNat / 4096) ::
            Sum.inr (128 + c.toNat / 64 % 64) :: Sum.inr (128 + c.toNat % 64) :: ts) = _
          rw [utf8Assemble, if_neg (by omega), if_neg (by omega), if_neg (by omega),
            if_pos (by omega), utf8Cont2, if_pos (by constructor <;> omega)]
          have hcp : (224 + c.toNat / 4096 - 224) * 4096 + (128 + c.toNat / 64 % 64 - 128) * 64 +
              (128 + c.toNat % 64 - 128) = c.toNat := by omega
          rw [hcp, if_pos (by omega), Char.ofNat_toNat]
        · have hb : utf8Bytes c.toNat =
              [240 + c.toNat / 262144, 128 + c.toNat / 4096 % 64,
                128 + c.toNat / 64 % 64, 128 + c.toNat % 64] := by
            rw [utf8Bytes, if_neg h1, if_neg h2, if_neg h3]
          rw [hb]
          show utf8Assemble (Sum.inr (240 + c.toNat / 262144) ::
            Sum.inr (128 + c.toNat / 4096 % 64) :: Sum.inr (128 + c.toNat / 64 % 64) ::
              Sum.inr (128 + c.toNat % 64) :: ts) = _
          rw [utf8Assemble, if_neg (by omega), if_neg (by omega), if_neg (by omega),
            if_neg (by omega), if_pos (by omega), utf8Cont3,
            if_pos (by refine ⟨⟨by omega, by omega⟩, ⟨by omega, by omega⟩, by omega, by omega⟩)]
          have hcp : (240 + c.toNat / 262144 - 240) * 262144 +
              (128 + c.toNat / 4096 % 64 - 128) * 4096 +
              (128 + c.toNat / 64 % 64 - 128) * 64 + (128 + c.toNat % 64 - 128) = c.toNat := by
            omega
          rw [hcp, if_pos (by omega), Char.ofNat_toNat]

theorem pctTokens_encode (s : List Char) :
    pctTokens (encodeURIComponent s) = some (s.map uriTokens).flatten := by
  induction s with
  | nil => rfl
  | cons c rest ih =>
    have : encodeURIComponent (c :: rest) = encodeURIComponentChar c ++ encodeURIComponent rest := by
      simp only [encodeURIComponent, List.map_cons, List.flatten_cons]
    rw [this, pctTokens_encodeChar, ih]
    rfl

theorem utf8Assemble_tokens (s : List Char) :
    utf8Assemble (s.map uriTokens).flatten = some s := by
  induction s with
  | nil => rfl
  | cons c rest ih =>
    simp only [List.map_cons, List.flatten_cons]
    rw [utf8Assemble_uriTokens, ih]
    rfl

/-- `decodeURIComponent` inverts `encodeURIComponent` on any string. -/
theorem decodeURIComponent_encodeURIComponent (s : List Char) :
    decodeURIComponent (encodeURIComponent s) = some s := by
  simp [decodeURIComponent, pctTokens_encode, utf8Assemble_tokens]

/-! ## btoa / atob

`btoa` base64-encodes a binary string (every char code below 256, which the
ASCII output of `encodeURIComponent` satisfies), raising otherwise — modelled
as `none`.  `atob` implements forgiving base64: ASCII whitespace is ignored,
`=` padding is accepted only at the very end, any other character outside the
base64 alphabet is rejected, and leftover bits of a final partial group are
discarded. -/

/-- The base64 alphabet character for a 6-bit value. -/
def b64Char (n : Nat) : Char :=
  if n < 26 then Char.ofNat (65 + n)
  else if n < 52 then Char.ofNat (71 + n)
  else if n < 62 then Char.ofNat (n - 4)
  else if n = 62 then '+' else '/'

/-- Value of a base64 alphabet character. -/
def b64Val (c : Char) : Option Nat :=
  if 65 ≤ c.toNat ∧ c.toNat ≤ 90 then some (c.toNat - 65)
  else if 97 ≤ c.toNat ∧ c.toNat ≤ 122 then some (c.toNat - 71)
  else if 48 ≤ c.toNat ∧ c.toNat ≤ 57 then some (c.toNat + 4)
  else if c.toNat = 43 then some 62
  else if c.toNat = 47 then some 63
  else none

theorem b64Val_b64Char {n : Nat} (h : n < 64) : b64Val (b64Char n) = some n := by
  interval_cases n <;> decide

theorem b64Char_ne_pad {n : Nat} (h : n < 64) : ¬ b64Char n = '=' := by
  interval_cases n <;> decide

/-- Base64 encoding of a byte list, with `=` padding. -/
def b64Encode : List Nat → List Char
  | [] => []
  | [a] => [b64Char (a / 4), b64Char (a % 4 * 16), '=', '=']
  | [a, b] => [b64Char (a / 4), b64Char (a % 4 * 16 + b / 16), b64Char (b % 16 * 4), '=']
  | a :: b :: c :: rest =>
    b64Char (a / 4) :: b64Char (a % 4 * 16 + b / 16) :: b64Char (b % 16 * 4 + c / 64) ::
      b64Char (c % 64) :: b64Encode rest

/-- ASCII whitespace ignored by forgiving base64 decoding. -/
def isB64Ws (c : Char) : Bool :=
  c.toNat = 9 ∨ c.toNat = 10 ∨ c.toNat = 12 ∨ c.toNat = 13 ∨ c.toNat = 32

/-- Base64 decoding of a whitespace-free character list into bytes. -/
def b64DecodeChunks : List Char → Option (List Nat)
  | a :: b :: c :: d :: rest =>
    match b64Val a, b64Val b with
    | some va, some vb =>
      if c = '=' then
        if d = '=' ∧ rest = [] then some [va * 4 + vb / 16] else none
      else
        match b64Val c with
        | some vc =>
          if d = '=' then
            if rest = [] then some [va * 4 + vb / 16, vb % 16 * 16 + vc / 4] else none
          else
            match b64Val d with
            | some vd =>
              (b64DecodeChunks rest).map
                (fun bs => (va * 4 + vb / 16) :: (vb % 16 * 16 + vc / 4) ::
                  (vc % 4 * 64 + vd) :: bs)
            | none => none
        | none => none
    | _, _ => none
  | [] => some []
  | [a, b] =>
    match b64Val a, b64Val b with
    | some va, some vb => some [va * 4 + vb / 16]
    | _, _ => none
  | [a, b, c] =>
    match b64Val a, b64Val b, b64Val c with
    | some va, some vb, some vc => some [va * 4 + vb / 16, vb % 16 * 16 + vc / 4]
    | _, _, _ => none
  | [_] => none

def atob (s : List Char) : Option (List Char) :=
  (b64DecodeChunks (s.filter (fun c => !isB64Ws c))).map (List.map Char.ofNat)

def btoa (s : List Char) : Option (List Char) :=
  if s.all (fun c => c.toNat < 256) then some (b64Encode (s.map Char.toNat)) else none

theorem b64Char_not_ws {n : Nat} (h : n < 64) : isB64Ws (b64Char n) = false := by
  interval_cases n <;> decide

theorem b64Encode_not_ws {bs : List Nat} (hb : ∀ x ∈ bs, x < 256) :
    ∀ c ∈ b64Encode bs, isB64Ws c = false := by
  induction bs using b64Encode.induct with
  | case1 => intro c hc; simp [b64Encode] at hc
  | case2 a =>
    intro c hc
    have ha : a < 256 := hb a (by simp)
    simp only [b64Encode, List.mem_cons, List.not_mem_nil, or_false] at hc
    rcases hc with rfl | rfl | rfl | rfl
    · exact b64Char_not_ws (by omega)
    · exact b64Char_not_ws (by omega)
    · decide
    · decide
  | case3 a b =>
    intro c hc
    have ha : a < 256 := hb a (by simp)
    have hbb : b < 256 := hb b (by simp)
    simp only [b64Encode, List.mem_cons, List.not_mem_nil, or_false] at hc
    rcases hc with rfl | rfl | rfl | rfl
    · exact b64Char_not_ws (by omega)
    · exact b64Char_not_ws (by omega)
    · exact b64Char_not_ws (by omega)
    · decide
  | case4 a b c rest ih =>
    intro x hx
    have ha : a < 256 := hb a (by simp)
    have hbb : b < 256 := hb b (by simp)
    have hcc : c < 256 := hb c (by simp)
    simp only [b64Encode, List.mem_cons] at hx
    rcases hx with rfl | rfl | rfl | rfl | hx
    · exact b64Char_not_ws (by omega)
    · exact b64Char_not_ws (by omega)
    · exact b64Char_not_ws (by omega)
    · exact b64Char_not_ws (by omega)
    · exact ih (fun y hy => hb y (by simp [hy])) x hx

theorem b64DecodeChunks_b64Encode {bs : List Nat} (hb : ∀ x ∈ bs, x < 256) :
    b64DecodeChunks (b64Encode bs) = some bs := by
  induction bs using b64Encode.induct with
  | case1 => rfl
  | case2 a =>
    have ha : a < 256 := hb a (by simp)
    rw [b64Encode, b64DecodeChunks, @b64Val_b64Char (a / 4) (by omega),
      @b64Val_b64Char (a % 4 * 16) (by omega)]
    dsimp only
    rw [if_pos rfl, if_pos ⟨rfl, rfl⟩]
    have h1 : a / 4 * 4 + a % 4 * 16 / 16 = a := by omega
    rw [h1]
  | case3 a b =>
    have ha : a < 256 := hb a (by simp)
    have hbb : b < 256 := hb b (by simp)
    rw [b64Encode, b64DecodeChunks, @b64Val_b64Char (a / 4) (by omega),
      @b64Val_b64Char (a % 4 * 16 + b / 16) (by omega)]
    dsimp only
    rw [if_neg (@b64Char_ne_pad (b % 16 * 4) (by omega)),
      @b64Val_b64Char (b % 16 * 4) (by omega)]
    dsimp only
    rw [if_pos rfl, if_pos rfl]
    have h1 : a / 4 * 4 + (a % 4 * 16 + b / 16) / 16 = a := by omega
    have h2 : (a % 4 * 16 + b / 16) % 16 * 16 + b % 16 * 4 / 4 = b := by omega
    rw [h1, h2]
  | case4 a b c rest ih =>
    have ha : a < 256 := hb a (by simp)
    have hbb : b < 256 := hb b (by simp)
    have hcc : c < 256 := hb c (by simp)
    rw [b64Encode, b64DecodeChunks, @b64Val_b64Char (a / 4) (by omega),
      @b64Val_b64Char (a % 4 * 16 + b / 16) (by omega)]
    dsimp only
    rw [if_neg (@b64Char_ne_pad (b % 16 * 4 + c / 64) (by omega)),
      @b64Val_b64Char (b % 16 * 4 + c / 64) (by omega)]
    dsimp only
    rw [if_neg (@b64Char_ne_pad (c % 64) (by omega)),
      @b64Val_b64Char (c % 64) (by omega)]
    dsimp only
    rw [ih (fun y hy => hb y (by simp [hy]))]
    have h1 : a / 4 * 4 + (a % 4 * 16 + b / 16) / 16 = a := by omega
    have h2 : (a % 4 * 16 + b / 16) % 16 * 16 + (b % 16 * 4 + c / 64) / 4 = b := by omega
    have h3 : (b % 16 * 4 + c / 64) % 4 * 64 + c % 64 = c := by omega
    rw [h1, h2, h3]
    rfl

theorem map_ofNat_toNat (s : List Char) :
    List.map Char.ofNat (List.map Char.toNat s) = s := by
  induction s with
  | nil => rfl
  | cons c rest ih => simp only [List.map_cons, Char.ofNat_toNat, ih]

theorem filter_eq_self_of_forall {p : Char → Bool} {l : List Char}
    (h : ∀ c ∈ l, p c = true) : l.filter p = l := by
  induction l with
  | nil => rfl
  | cons x xs ih =>
    rw [List.filter_cons, if_pos (h x (by simp))]
    rw [ih (fun c hc => h c (by simp [hc]))]

/-- `atob` inverts `btoa` on binary strings: every char code below 256. -/
theorem atob_btoa {s : List Char} (h : ∀ c ∈ s, c.toNat < 256) :
    (btoa s).bind atob = some s := by
  have hb : ∀ x ∈ s.map Char.toNat, x < 256 := by
    intro x hx
    obtain ⟨c, hc, rfl⟩ := List.mem_map.mp hx
    exact h c hc
  rw [btoa, if_pos (List.all_eq_true.mpr (fun c hc => by simpa using h c hc))]
  rw [Option.some_bind, atob,
    filter_eq_self_of_forall
      (fun c hc => by rw [b64Encode_not_ws hb c hc]; rfl),
    b64DecodeChunks_b64Encode hb]
  show some (List.map Char.ofNat (List.map Char.toNat s)) = some s
  rw [map_ofNat_toNat]

/-! ## JSON values

`Json` models the values handled by `JSON.stringify` and `JSON.parse`.
Numbers are integers: the only numbers the application produces are
`Date.now()` timestamps. -/

inductive Json where
  | null
  | bool (b : Bool)
  | num (n : Int)
  | str (s : String)
  | arr (items : List Json)
  | obj (fields : List (String × Json))

/-- First-position lookup of an object key, `t.k` member access semantics. -/
def lookupField : List (String × Json) → String → Option Json
  | [], _ => none
  | f :: rest, k => if f.1 = k then some f.2 else lookupField rest k

/-- JavaScript member access `t[k]` for the non-index keys the application
reads (`id`, `createdAt`, `isCompleted`): `undefined` (`none`) on non-objects. -/
def jsGet (t : Json) (k : String) : Option Json :=
  match t with
  | .obj fs => lookupField fs k
  | _ => none

/-- JavaScript truthiness of a possibly-`undefined` value. -/
def truthy : Option Json → Bool
  | none => false
  | some .null => false
  | some (.bool b) => b
  | some (.num n) => n != 0
  | some (.str s) => s != ""
  | some (.arr _) => true
  | some (.obj _) => true

/-- A JavaScript property write `o[k] = v`: updates the first occurrence in
place, appends a new property otherwise. -/
def objInsert : List (String × Json) → String → Json → List (String × Json)
  | [], k, v => [(k, v)]
  | f :: rest, k, v => if f.1 = k then (k, v) :: rest else f :: objInsert rest k v

/-- Sequential property writes, as object-literal evaluation performs them. -/
def objInsertAll (acc : List (String × Json)) : List (String × Json) → List (String × Json)
  | [] => acc
  | (k, v) :: rest => objInsertAll (objInsert acc k v) rest

/-- Index-keyed fields produced by spreading an array or a string. -/
def indexFieldsAux (i : Nat) : List Json → List (String × Json)
  | [] => []
  | x :: rest => (String.mk (natToBase 10 i), x) :: indexFieldsAux (i + 1) rest

/-- Own enumerable properties seen by object spread `{...t}`. -/
def spreadFields (t : Json) : List (String × Json) :=
  match t with
  | .obj fs => fs
  | .arr xs => indexFieldsAux 0 xs
  | .str s => indexFieldsAux 0 (s.data.map (fun c => Json.str (String.mk [c])))
  | _ => []

/-- A value that can arise from an actual JavaScript value: every object has
distinct keys. -/
inductive Canonical : Json → Prop
  | null : Canonical .null
  | bool (b : Bool) : Canonical (.bool b)
  | num (n : Int) : Canonical (.num n)
  | str (s : String) : Canonical (.str s)
  | arr (xs : List Json) (h : ∀ x ∈ xs, Canonical x) : Canonical (.arr xs)
  | obj (fs : List (String × Json)) (hk : (fs.map Prod.fst).Nodup)
      (hv : ∀ f ∈ fs, Canonical f.2) : Canonical (.obj fs)

/-! ## JSON.stringify -/

/-- Lowercase hexadecimal digit, as in the `\u00xx` escapes of `stringify`. -/
def toLowHexChar (n : Nat) : Char :=
  if n < 10 then Char.ofNat (48 + n) else Char.ofNat (87 + n)

/-- String-literal escape of one character, as `JSON.stringify` performs it:
quote, backslash and control characters are escaped, everything else is kept. -/
def escapeChar (c : Char) : List Char :=
  if c = '"' then ['\\', '"']
  else if c = '\\' then ['\\', '\\']
  else if c.toNat = 8 then ['\\', 'b']
  else if c.toNat = 9 then ['\\', 't']
  else if c.toNat = 10 then ['\\', 'n']
  else if c.toNat = 12 then ['\\', 'f']
  else if c.toNat = 13 then ['\\', 'r']
  else if c.toNat < 32 then
    ['\\', 'u', '0', '0', toLowHexChar (c.toNat / 16), toLowHexChar (c.toNat % 16)]
  else [c]

def serializeString (s : String) : List Char :=
  '"' :: (s.data.map escapeChar).flatten ++ ['"']

def serializeInt (n : Int) : List Char :=
  if n < 0 then '-' :: natToBase 10 n.natAbs else natToBase 10 n.toNat

mutual

/-- `JSON.stringify` (no spacing argument): compact output, object keys in
property order. -/
def serialize : Json → List Char
  | .num n => serializeInt n
  | .str s => serializeString s
  | .null => ['n', 'u', 'l', 'l']
  | .bool false => ['f', 'a', 'l', 's', 'e']
  | .bool true => ['t', 'r', 'u', 'e']
  | .arr [] => ['[', ']']
  | .arr (v :: vs) => '[' :: (serialize v ++ serializeTail vs) ++ [']']
  | .obj [] => [Char.ofNat 123, Char.ofNat 125]
  | .obj (f :: fs) =>
    Char.ofNat 123 :: (serializeField f ++ serializeFieldsTail fs) ++ [Char.ofNat 125]

def serializeTail : List Json → List Char
  | [] => []
  | v :: vs => ',' :: serialize v ++ serializeTail vs

def serializeField : String × Json → List Char
  | (k, v) => serializeString k ++ ':' :: serialize v

def serializeFieldsTail : List (String × Json) → List Char
  | [] => []
  | f :: fs => ',' :: serializeField f ++ serializeFieldsTail fs

end

mutual

/-- Fuel needed by the recursive-descent parser to reparse a value. -/
def jsize : Json → Nat
  | .null => 1
  | .bool _ => 1
  | .num _ => 1
  | .str _ => 1
  | .arr [] => 1
  | .arr (v :: vs) => 1 + jsize v + jsizeList vs
  | .obj [] => 1
  | .obj (f :: fs) => 2 + jsize f.2 + jsizeFieldsList fs

def jsizeList : List Json → Nat
  | [] => 1
  | v :: vs => 1 + jsize v + jsizeList vs

def jsizeFieldsList : List (String × Json) → Nat
  | [] => 1
  | f :: fs => 2 + jsize f.2 + jsizeFieldsList fs

end

/-! ## JSON.parse -/

/-- JSON insignificant whitespace. -/
def jsonWs (c : Char) : Bool :=
  c.toNat = 32 ∨ c.toNat = 9 ∨ c.toNat = 10 ∨ c.toNat = 13

def skipWs : List Char → List Char
  | [] => []
  | c :: rest => if jsonWs c then skipWs rest else c :: rest

def startsWith (a : Char) : List Char → Bool
  | [] => false
  | x :: _ => x = a

/-- ASCII decimal digit. -/
def isDig (c : Char) : Bool := 48 ≤ c.toNat ∧ c.toNat ≤ 57

/-- True when the input does not continue with a digit, so that a number
parse just before it ends exactly there. -/
def noDigitHead : List Char → Bool
  | [] => true
  | c :: _ => !isDig c

def stripPrefix : List Char → List Char → Option (List Char)
  | [], cs => some cs
  | _ :: _, [] => none
  | x :: p1, c :: cs1 => if c = x then stripPrefix p1 cs1 else none

def parseDigits (cs : List Char) : Option (Nat × List Char) :=
  if cs.takeWhile isDig = [] then none
  else some (fromDigits 10 (cs.takeWhile isDig), cs.dropWhile isDig)

mutual

/-- Body of a JSON string literal after the opening quote. -/
def parseStringBody : List Char → Option (List Char × List Char)
  | [] => none
  | c :: rest =>
    if c = '"' then some ([], rest)
    else if c = '\\' then parseEscape rest
    else if c.toNat < 32 then none
    else (parseStringBody rest).map (fun p => (c :: p.1, p.2))

/-- One escape sequence after a backslash. -/
def parseEscape : List Char → Option (List Char × List Char)
  | [] => none
  | e :: rest =>
    if e = '"' then (parseStringBody rest).map (fun p => ('"' :: p.1, p.2))
    else if e = '\\' then (parseStringBody rest).map (fun p => ('\\' :: p.1, p.2))
    else if e = '/' then (parseStringBody rest).map (fun p => ('/' :: p.1, p.2))
    else if e = 'b' then (parseStringBody rest).map (fun p => (Char.ofNat 8 :: p.1, p.2))
    else if e = 'f' then (parseStringBody rest).map (fun p => (Char.ofNat 12 :: p.1, p.2))
    else if e = 'n' then (parseStringBody rest).map (fun p => (Char.ofNat 10 :: p.1, p.2))
    else if e = 'r' then (parseStringBody rest).map (fun p => (Char.ofNat 13 :: p.1, p.2))
    else if e = 't' then (parseStringBody rest).map (fun p => (Char.ofNat 9 :: p.1, p.2))
    else if e = 'u' then parseUnicodeEscape rest
    else none

/-- A `\uXXXX` escape; surrogate code units are rejected (they have no
counterpart in the model). -/
def parseUnicodeEscape : List Char → Option (List Char × List Char)
  | h1 :: h2 :: h3 :: h4 :: rest =>
    match hexCharVal h1, hexCharVal h2, hexCharVal h3, hexCharVal h4 with
    | some a, some b, some c, some d =>
      if a * 4096 + b * 256 + c * 16 + d < 55296 then
        (parseStringBody rest).map
          (fun p => (Char.ofNat (a * 4096 + b * 256 + c * 16 + d) :: p.1, p.2))
      else if 57344 ≤ a * 4096 + b * 256 + c * 16 + d then
        (parseStringBody rest).map
          (fun p => (Char.ofNat (a * 4096 + b * 256 + c * 16 + d) :: p.1, p.2))
      else none
    | _, _, _, _ => none
  | _ => none

end

mutual

/-- Recursive-descent JSON value parser with explicit fuel. -/
def parseValue : Nat → List Char → Option (Json × List Char)
  | 0, _ => none
  | f + 1, cs =>
    match skipWs cs with
    | [] => none
    | c :: rest =>
      if c = 'n' then (stripPrefix ['u', 'l', 'l'] rest).map (fun r => (Json.null, r))
      else if c = 't' then (stripPrefix ['r', 'u', 'e'] rest).map (fun r => (Json.bool true, r))
      else if c = 'f' then
        (stripPrefix ['a', 'l', 's', 'e'] rest).map (fun r => (Json.bool false, r))
      else if c = '"' then
        (parseStringBody rest).map (fun p => (Json.str (String.mk p.1), p.2))
      else if c = '-' then (parseDigits rest).map (fun p => (Json.num (-(p.1 : Int)), p.2))
      else if isDig c then (parseDigits (c :: rest)).map (fun p => (Json.num ((p.1 : Int)), p.2))
      else if c = '[' then
        if startsWith ']' (skipWs rest) then some (Json.arr [], (skipWs rest).tail)
        else
          match parseValue f rest with
          | some (v, r2) => (parseArrTail f r2).map (fun p => (Json.arr (v :: p.1), p.2))
          | none => none
      else if c = Char.ofNat 123 then
        if startsWith (Char.ofNat 125) (skipWs rest) then some (Json.obj [], (skipWs rest).tail)
        else
          match parseMember f rest with
          | some (kv, r2) =>
            (parseObjTail f r2).map (fun p => (Json.obj (objInsertAll [] (kv :: p.1)), p.2))
          | none => none
      else none

/-- Array elements after the first one: a `,`-led list closed by `]`. -/
def parseArrTail : Nat → List Char → Option (List Json × List Char)
  | 0, _ => none
  | f + 1, cs =>
    match skipWs cs with
    | [] => none
    | c :: rest =>
      if c = ']' then some ([], rest)
      else if c = ',' then
        match parseValue f rest with
        | some (v, r2) => (parseArrTail f r2).map (fun p => (v :: p.1, p.2))
        | none => none
      else none

/-- One `"key": value` object member. -/
def parseMember : Nat → List Char → Option ((String × Json) × List Char)
  | 0, _ => none
  | f + 1, cs =>
    match skipWs cs with
    | [] => none
    | c :: rest =>
      if c = '"' then
        match parseStringBody rest with
        | some (k, r1) =>
          match skipWs r1 with
          | c2 :: r2 =>
            if c2 = ':' then (parseValue f r2).map (fun p => ((String.mk k, p.1), p.2))
            else none
          | [] => none
        | none => none
      else none

/-- Object members after the first one: a `,`-led list closed by `}`. -/
def parseObjTail : Nat → List Char → Option (List (String × Json) × List Char)
  | 0, _ => none
  | f + 1, cs =>
    match skipWs cs with
    | [] => none
    | c :: rest =>
      if c = Char.ofNat 125 then some ([], rest)
      else if c = ',' then
        match parseMember f rest with
        | some (kv, r2) => (parseObjTail f r2).map (fun p => (kv :: p.1, p.2))
        | none => none
      else none

end

/-- `JSON.parse`: a complete value with only whitespace around it. -/
def parseJson (s : List Char) : Option Json :=
  match parseValue (s.length + 1) s with
  | some (v, rest) => if skipWs rest = [] then some v else none
  | none => none

/-! ## Round trip of the JSON codec: helper lemmas -/

theorem toNat_ofNat_lt {n : Nat} (h : n < 55296) : (Char.ofNat n).toNat = n := by
  have hv : Nat.isValidChar n := Or.inl h
  rw [Char.ofNat, dif_pos hv]
  rfl

theorem toNat_digitChar {n : Nat} (h : n < 10) : (digitChar n).toNat = 48 + n := by
  rw [digitChar, if_pos h]
  exact toNat_ofNat_lt (by omega)

theorem natToBaseAux10_digits :
    ∀ fuel n, ∀ d ∈ natToBaseAux 10 fuel n, 48 ≤ d.toNat ∧ d.toNat ≤ 57 := by
  intro fuel
  induction fuel with
  | zero => intro n d hd; simp [natToBaseAux] at hd
  | succ f ih =>
    intro n d hd
    rw [natToBaseAux] at hd
    by_cases hn : n < 10
    · rw [if_pos hn] at hd
      simp only [List.mem_singleton] at hd
      subst hd
      rw [toNat_digitChar hn]
      omega
    · rw [if_neg hn] at hd
      rcases List.mem_append.mp hd with hd | hd
      · exact ih _ d hd
      · simp only [List.mem_singleton] at hd
        subst hd
        rw [toNat_digitChar (Nat.mod_lt _ (by omega))]
        omega

theorem natToBase10_digits {n : Nat} : ∀ d ∈ natToBase 10 n, 48 ≤ d.toNat ∧ d.toNat ≤ 57 :=
  natToBaseAux10_digits (n + 1) n

theorem natToBaseAux_ne_nil {b : Nat} : ∀ fuel n, 0 < fuel → natToBaseAux b fuel n ≠ [] := by
  intro fuel n h
  cases fuel with
  | zero => omega
  | succ f =>
    rw [natToBaseAux]
    by_cases hn : n < b
    · simp [hn]
    · simp [hn]

theorem natToBase_ne_nil {b n : Nat} : natToBase b n ≠ [] :=
  natToBaseAux_ne_nil (n + 1) n (by omega)

theorem natToBase10_head :
    ∀ n : Nat, ∃ d ds, natToBase 10 n = d :: ds ∧ 48 ≤ d.toNat ∧ d.toNat ≤ 57 := by
  intro n
  obtain ⟨d, ds, hds⟩ := List.exists_cons_of_ne_nil (natToBase_ne_nil (b := 10) (n := n))
  refine ⟨d, ds, hds, ?_⟩
  exact natToBase10_digits d (by rw [hds]; simp)

theorem isDig_of_digit {d : Char} (h : 48 ≤ d.toNat ∧ d.toNat ≤ 57) : isDig d = true := by
  simp only [isDig, decide_eq_true_eq]
  omega

theorem stripPrefix_append (p X : List Char) : stripPrefix p (p ++ X) = some X := by
  induction p with
  | nil => rfl
  | cons x p1 ih => rw [List.cons_append, stripPrefix, if_pos rfl, ih]

theorem takeWhile_isDig_append {l X : List Char} (hl : ∀ c ∈ l, isDig c = true)
    (hX : noDigitHead X = true) :
    (l ++ X).takeWhile isDig = l ∧ (l ++ X).dropWhile isDig = X := by
  induction l with
  | nil =>
    cases X with
    | nil => exact ⟨rfl, rfl⟩
    | cons c rest =>
      have hc : isDig c = false := by
        rw [noDigitHead] at hX
        cases h : isDig c
        · rfl
        · rw [h] at hX; simp at hX
      constructor
      · rw [List.nil_append, List.takeWhile_cons, hc]
        simp
      · rw [List.nil_append, List.dropWhile_cons, hc]
        simp
  | cons x l1 ih =>
    obtain ⟨iht, ihd⟩ := ih (fun c hc => hl c (by simp [hc]))
    have hx : isDig x = true := hl x (by simp)
    constructor
    · rw [List.cons_append, List.takeWhile_cons, hx]
      simp only [if_true, iht]
    · rw [List.cons_append, List.dropWhile_cons, hx]
      simp only [if_true, ihd]

theorem parseDigits_natToBase (n : Nat) (X : List Char) (hX : noDigitHead X = true) :
    parseDigits (natToBase 10 n ++ X) = some (n, X) := by
  obtain ⟨ht, hd⟩ := takeWhile_isDig_append
    (fun c hc => isDig_of_digit (natToBase10_digits c hc)) hX
  rw [parseDigits, ht, hd, if_neg natToBase_ne_nil, fromDigits_natToBase (by omega) (by omega)]

theorem hexCharVal_toLowHexChar {n : Nat} (h : n < 16) :
    hexCharVal (toLowHexChar n) = some n := by
  interval_cases n <;> decide

theorem string_mk_data (s : String) : String.mk s.data = s := rfl

/-- `parseStringBody` inverts the escaping done by `serializeString`. -/
theorem parseStringBody_escape (s X : List Char) :
    parseStringBody ((s.map escapeChar).flatten ++ '"' :: X) = some (s, X) := by
  induction s with
  | nil =>
    rw [List.map_nil, List.flatten_nil, List.nil_append, parseStringBody, if_pos rfl]
  | cons c rest ih =>
    rw [List.map_cons, List.flatten_cons, List.append_assoc]
    by_cases h1 : c = '"'
    · subst h1
      have he : escapeChar '"' = ['\\', '"'] := by decide
      rw [he]
      rw [show (['\\', '"'] : List Char) ++ ((rest.map escapeChar).flatten ++ '"' :: X) =
        '\\' :: '"' :: ((rest.map escapeChar).flatten ++ '"' :: X) from rfl]
      rw [parseStringBody, if_neg (by decide), if_pos rfl, parseEscape, if_pos rfl, ih]
      rfl
    · by_cases h2 : c = '\\'
      · subst h2
        have he : escapeChar '\\' = ['\\', '\\'] := by decide
        rw [he]
        rw [show (['\\', '\\'] : List Char) ++ ((rest.map escapeChar).flatten ++ '"' :: X) =
          '\\' :: '\\' :: ((rest.map escapeChar).flatten ++ '"' :: X) from rfl]
        rw [parseStringBody, if_neg (by decide), if_pos rfl, parseEscape, if_neg (by decide),
          if_pos rfl, ih]
        rfl
      · by_cases h3 : c.toNat < 32
        · have hofn : Char.ofNat c.toNat = c := Char.ofNat_toNat c
          by_cases e8 : c.toNat = 8
          · have he : escapeChar c = ['\\', 'b'] := by
              rw [escapeChar, if_neg h1, if_neg h2, if_pos e8]
            rw [he]
            rw [show (['\\', 'b'] : List Char) ++ ((rest.map escapeChar).flatten ++ '"' :: X) =
              '\\' :: 'b' :: ((rest.map escapeChar).flatten ++ '"' :: X) from rfl]
            rw [parseStringBody, if_neg (by decide), if_pos rfl, parseEscape,
              if_neg (by decide), if_neg (by decide), if_neg (by decide), if_pos rfl, ih]
            rw [e8] at hofn
            rw [hofn]
            rfl
          · by_cases e9 : c.toNat = 9
            · have he : escapeChar c = ['\\', 't'] := by
                rw [escapeChar, if_neg h1, if_neg h2, if_neg e8, if_pos e9]
              rw [he]
              rw [show (['\\', 't'] : List Char) ++ ((rest.map escapeChar).flatten ++ '"' :: X) =
                '\\' :: 't' :: ((rest.map escapeChar).flatten ++ '"' :: X) from rfl]
              rw [parseStringBody, if_neg (by decide), if_pos rfl, parseEscape,
                if_neg (by decide), if_neg (by decide), if_neg (by decide), if_neg (by decide),
                if_neg (by decide), if_neg (by decide), if_neg (by decide), if_pos rfl, ih]
              rw [e9] at hofn
              rw [hofn]
              rfl
            · by_cases e10 : c.toNat = 10
              · have he : escapeChar c = ['\\', 'n'] := by
                  rw [escapeChar, if_neg h1, if_neg h2, if_neg e8, if_neg e9, if_pos e10]
                rw [he]
                rw [show (['\\', 'n'] : List Char) ++
                  ((rest.map escapeChar).flatten ++ '"' :: X) =
                  '\\' :: 'n' :: ((rest.map escapeChar).flatten ++ '"' :: X) from rfl]
                rw [parseStringBody, if_neg (by decide), if_pos rfl, parseEscape,
                  if_neg (by decide), if_neg (by decide), if_neg (by decide),
                  if_neg (by decide), if_neg (by decide), if_pos rfl, ih]
                rw [e10] at hofn
                rw [hofn]
                rfl
              · by_cases e12 : c.toNat = 12
                · have he : escapeChar c = ['\\', 'f'] := by
                    rw [escapeChar, if_neg h1, if_neg h2, if_neg e8, if_neg e9, if_neg e10,
                      if_pos e12]
                  rw [he]
                  rw [show (['\\', 'f'] : List Char) ++
                    ((rest.map escapeChar).flatten ++ '"' :: X) =
                    '\\' :: 'f' :: ((rest.map escapeChar).flatten ++ '"' :: X) from rfl]
                  rw [parseStringBody, if_neg (by decide), if_pos rfl, parseEscape,
                    if_neg (by decide), if_neg (by decide), if_neg (by decide),
                    if_neg (by decide), if_pos rfl, ih]
                  rw [e12] at hofn
                  rw [hofn]
                  rfl
                · by_cases e13 : c.toNat = 13
                  · have he : escapeChar c = ['\\', 'r'] := by
                      rw [escapeChar, if_neg h1, if_neg h2, if_neg e8, if_neg e9, if_neg e10,
                        if_neg e12, if_pos e13]
                    rw [he]
                    rw [show (['\\', 'r'] : List Char) ++
                      ((rest.map escapeChar).flatten ++ '"' :: X) =
                      '\\' :: 'r' :: ((rest.map escapeChar).flatten ++ '"' :: X) from rfl]
                    rw [parseStringBody, if_neg (by decide), if_pos rfl, parseEscape,
                      if_neg (by decide), if_neg (by decide), if_neg (by decide),
                      if_neg (by decide), if_neg (by decide), if_neg (by decide),
                      if_pos rfl, ih]
                    rw [e13] at hofn
                    rw [hofn]
                    rfl
                  · have he : escapeChar c =
                        ['\\', 'u', '0', '0', toLowHexChar (c.toNat / 16),
                          toLowHexChar (c.toNat % 16)] := by
                      rw [escapeChar, if_neg h1, if_neg h2, if_neg e8, if_neg e9, if_neg e10,
                        if_neg e12, if_neg e13, if_pos h3]
                    rw [he]
                    rw [show (['\\', 'u', '0', '0', toLowHexChar (c.toNat / 16),
                        toLowHexChar (c.toNat % 16)] : List Char) ++
                      ((rest.map escapeChar).flatten ++ '"' :: X) =
                      '\\' :: 'u' :: '0' :: '0' :: toLowHexChar (c.toNat / 16) ::
                        toLowHexChar (c.toNat % 16) ::
                        ((rest.map escapeChar).flatten ++ '"' :: X) from rfl]
                    rw [parseStringBody, if_neg (by decide), if_pos rfl, parseEscape,
                      if_neg (by decide), if_neg (by decide), if_neg (by decide),
                      if_neg (by decide), if_neg (by decide), if_neg (by decide),
                      if_neg (by decide), if_neg (by decide), if_pos rfl,
                      parseUnicodeEscape]
                    have hh : hexCharVal ('0' : Char) = some 0 := by decide
                    rw [hh, hexCharVal_toLowHexChar (by omega),
                      hexCharVal_toLowHexChar (by omega)]
                    dsimp only
                    have hcp : 0 * 4096 + 0 * 256 + c.toNat / 16 * 16 + c.toNat % 16 =
                        c.toNat := by omega
                    simp only [hcp]
                    rw [if_pos (by omega), ih]
                    simp only [Option.map_some']
                    rw [Char.ofNat_toNat]
        · have he : escapeChar c = [c] := by
            rw [escapeChar, if_neg h1, if_neg h2, if_neg (by omega), if_neg (by omega),
              if_neg (by omega), if_neg (by omega), if_neg (by omega), if_neg h3]
          rw [he]
          rw [show ([c] : List Char) ++ ((rest.map escapeChar).flatten ++ '"' :: X) =
            c :: ((rest.map escapeChar).flatten ++ '"' :: X) from rfl]
          rw [parseStringBody, if_neg h1, if_neg h2, if_neg h3, ih]
          rfl

theorem parseStringBody_serializeString (s : String) (X : List Char) :
    parseStringBody ((s.data.map escapeChar).flatten ++ '"' :: X) = some (s.data, X) :=
  parseStringBody_escape s.data X

theorem jsize_pos (v : Json) : 1 ≤ jsize v := by
  cases v with
  | null => rw [jsize]
  | bool b => rw [jsize]
  | num n => rw [jsize]
  | str s => rw [jsize]
  | arr items =>
    cases items with
    | nil => rw [jsize]
    | cons v vs => rw [jsize]; omega
  | obj fields =>
    cases fields with
    | nil => rw [jsize]
    | cons f fs => rw [jsize]; omega

theorem jsizeList_pos (vs : List Json) : 1 ≤ jsizeList vs := by
  cases vs with
  | nil => rw [jsizeList]
  | cons v rest => rw [jsizeList]; omega

theorem jsizeFieldsList_pos (fs : List (String × Json)) : 1 ≤ jsizeFieldsList fs := by
  cases fs with
  | nil => rw [jsizeFieldsList]
  | cons f rest => rw [jsizeFieldsList]; omega

theorem ne_of_toNat_bounds {d : Char} {c : Char} (h1 : 48 ≤ d.toNat) (h2 : d.toNat ≤ 57)
    (hc : c.toNat < 48 ∨ 57 < c.toNat) : ¬ d = c := by
  intro h
  subst h
  omega

/-- Every serialized value starts with a character that is not JSON whitespace
and not a closing bracket. -/
theorem serialize_head (v : Json) :
    ∃ c cs, serialize v = c :: cs ∧ jsonWs c = false ∧ ¬ c = ']' := by
  cases v with
  | null => exact ⟨'n', _, by rw [serialize], by decide, by decide⟩
  | bool b =>
    cases b with
    | true => exact ⟨'t', _, by rw [serialize], by decide, by decide⟩
    | false => exact ⟨'f', _, by rw [serialize], by decide, by decide⟩
  | num n =>
    by_cases hneg : n < 0
    · exact ⟨'-', _, by rw [serialize, serializeInt, if_pos hneg], by decide, by decide⟩
    · obtain ⟨d, ds, hds, hd1, hd2⟩ := natToBase10_head n.toNat
      refine ⟨d, ds, ?_, ?_, ?_⟩
      · rw [serialize, serializeInt, if_neg hneg, hds]
      · simp only [jsonWs, decide_eq_false_iff_not]
        omega
      · exact ne_of_toNat_bounds hd1 hd2 (by decide)
  | str s =>
    exact ⟨'"', (s.data.map escapeChar).flatten ++ ['"'],
      by rw [serialize, serializeString]; simp, by decide, by decide⟩
  | arr items =>
    cases items with
    | nil => exact ⟨'[', [']'], by rw [serialize], by decide, by decide⟩
    | cons v vs =>
      exact ⟨'[', (serialize v ++ serializeTail vs) ++ [']'],
        by rw [serialize]; simp, by decide, by decide⟩
  | obj fields =>
    cases fields with
    | nil => exact ⟨Char.ofNat 123, [Char.ofNat 125], by rw [serialize], by decide, by decide⟩
    | cons f fs =>
      exact ⟨Char.ofNat 123, (serializeField f ++ serializeFieldsTail fs) ++ [Char.ofNat 125],
        by rw [serialize]; simp, by decide, by decide⟩

theorem skipWs_serialize (v : Json) (X : List Char) :
    skipWs (serialize v ++ X) = serialize v ++ X := by
  obtain ⟨c, cs, hv, hws, _⟩ := serialize_head v
  rw [hv, List.cons_append, skipWs, hws]
  simp

theorem startsWith_rbracket_serialize (v : Json) (X : List Char) :
    startsWith ']' (serialize v ++ X) = false := by
  obtain ⟨c, cs, hv, _, hne⟩ := serialize_head v
  rw [hv, List.cons_append, startsWith]
  simp [hne]

theorem serializeField_head (g : String × Json) :
    ∃ cs, serializeField g = '"' :: cs := by
  obtain ⟨k, v⟩ := g
  rw [serializeField, serializeString]
  exact ⟨(k.data.map escapeChar).flatten ++ ['"'] ++ ':' :: serialize v, by simp⟩

theorem skipWs_serializeField (g : String × Json) (X : List Char) :
    skipWs (serializeField g ++ X) = serializeField g ++ X := by
  obtain ⟨cs, hg⟩ := serializeField_head g
  rw [hg, List.cons_append, skipWs]
  simp [jsonWs]

theorem startsWith_rbrace_serializeField (g : String × Json) (X : List Char) :
    startsWith (Char.ofNat 125) (serializeField g ++ X) = false := by
  obtain ⟨cs, hg⟩ := serializeField_head g
  rw [hg, List.cons_append, startsWith]
  simp

theorem noDigitHead_tail_arr (vs : List Json) (X : List Char) :
    noDigitHead (serializeTail vs ++ ']' :: X) = true := by
  cases vs with
  | nil => rw [serializeTail]; rfl
  | cons w ws => rw [serializeTail]; rfl

theorem noDigitHead_tail_obj (fs : List (String × Json)) (X : List Char) :
    noDigitHead (serializeFieldsTail fs ++ Char.ofNat 125 :: X) = true := by
  cases fs with
  | nil => rw [serializeFieldsTail]; rfl
  | cons g gs => rw [serializeFieldsTail]; rfl

theorem objInsert_not_mem {fs : List (String × Json)} {k : String} {v : Json}
    (h : k ∉ fs.map Prod.fst) : objInsert fs k v = fs ++ [(k, v)] := by
  induction fs with
  | nil => rfl
  | cons g rest ih =>
    simp only [List.map_cons, List.mem_cons, not_or] at h
    rw [objInsert, if_neg (fun hh => h.1 hh.symm), ih h.2]
    simp

theorem objInsertAll_append :
    ∀ (fs acc : List (String × Json)),
      (∀ k ∈ fs.map Prod.fst, k ∉ acc.map Prod.fst) → (fs.map Prod.fst).Nodup →
      objInsertAll acc fs = acc ++ fs := by
  intro fs
  induction fs with
  | nil => intro acc _ _; rw [objInsertAll]; simp
  | cons g rest ih =>
    intro acc hdisj hnd
    obtain ⟨k, v⟩ := g
    rw [objInsertAll, objInsert_not_mem (hdisj k (by simp))]
    simp only [List.map_cons, List.nodup_cons] at hnd
    rw [ih (acc ++ [(k, v)]) ?_ hnd.2]
    · simp
    · intro k2 hk2
      simp only [List.map_append, List.map_cons, List.map_nil, List.mem_append,
        List.mem_singleton, not_or]
      exact ⟨hdisj k2 (by simp [hk2]), fun he => hnd.1 (he ▸ hk2)⟩

theorem objInsertAll_self {fs : List (String × Json)} (h : (fs.map Prod.fst).Nodup) :
    objInsertAll [] fs = fs := by
  have := objInsertAll_append fs [] (by simp) h
  simpa using this

/-- The parser fuel bound: a value needs no more fuel than the length of its
serialization. -/
theorem jsize_le_length :
    ∀ N, (∀ v : Json, jsize v ≤ N → jsize v ≤ (serialize v).length) ∧
      (∀ vs : List Json, jsizeList vs ≤ N → jsizeList vs ≤ (serializeTail vs).length + 1) ∧
      (∀ fs : List (String × Json), jsizeFieldsList fs ≤ N →
        jsizeFieldsList fs ≤ (serializeFieldsTail fs).length + 1) := by
  intro N
  induction N with
  | zero =>
    refine ⟨fun v hv => ?_, fun vs hvs => ?_, fun fs hfs => ?_⟩
    · have := jsize_pos v; omega
    · have := jsizeList_pos vs; omega
    · have := jsizeFieldsList_pos fs; omega
  | succ m ih =>
    obtain ⟨ih1, ih2, ih3⟩ := ih
    refine ⟨fun v hv => ?_, fun vs hvs => ?_, fun fs hfs => ?_⟩
    · cases v with
      | null => rw [jsize, serialize]; simp
      | bool b =>
        cases b with
        | true => rw [jsize, serialize]; simp
        | false => rw [jsize, serialize]; simp
      | num n =>
        rw [jsize, serialize, serializeInt]
        by_cases hneg : n < 0
        · simp [hneg]
        · rw [if_neg hneg]
          have := List.length_pos.mpr (natToBase_ne_nil (b := 10) (n := n.toNat))
          omega
      | str s => rw [jsize, serialize, serializeString]; simp
      | arr items =>
        cases items with
        | nil => rw [jsize, serialize]; simp
        | cons v vs =>
          rw [jsize] at hv ⊢
          have h1 := ih1 v (by have := jsizeList_pos vs; omega)
          have h2 := ih2 vs (by have := jsize_pos v; omega)
          rw [serialize]
          simp only [List.length_append, List.length_cons, List.length_nil]
          omega
      | obj fields =>
        cases fields with
        | nil => rw [jsize, serialize]; simp
        | cons f fs =>
          obtain ⟨k, v⟩ := f
          rw [jsize] at hv ⊢
          dsimp only at hv ⊢
          have h1 := ih1 v (by have := jsizeFieldsList_pos fs; omega)
          have h3 := ih3 fs (by have := jsize_pos v; omega)
          rw [serialize, serializeField, serializeString]
          simp only [List.length_append, List.length_cons, List.length_nil]
          omega
    · cases vs with
      | nil => rw [jsizeList, serializeTail]; simp
      | cons w ws =>
        rw [jsizeList] at hvs ⊢
        have h1 := ih1 w (by have := jsizeList_pos ws; omega)
        have h2 := ih2 ws (by have := jsize_pos w; omega)
        rw [serializeTail]
        simp only [List.length_append, List.length_cons]
        omega
    · cases fs with
      | nil => rw [jsizeFieldsList, serializeFieldsTail]; simp
      | cons g gs =>
        obtain ⟨k, v⟩ := g
        rw [jsizeFieldsList] at hfs ⊢
        dsimp only at hfs ⊢
        have h1 := ih1 v (by have := jsizeFieldsList_pos gs; omega)
        have h3 := ih3 gs (by have := jsize_pos v; omega)
        rw [serializeFieldsTail, serializeField, serializeString]
        simp only [List.length_append, List.length_cons, List.length_nil]
        omega

theorem skipWs_cons_of_not {c : Char} (h : jsonWs c = false) (X : List Char) :
    skipWs (c :: X) = c :: X := by
  rw [skipWs, h]
  simp

/-- Round trip of the JSON codec, by induction on the parser fuel: parsing the
serialization of a canonical value (followed by anything that does not extend
a trailing number) returns exactly that value. -/
theorem parse_serialize_aux :
    ∀ fuel : Nat,
      (∀ v X, Canonical v → jsize v ≤ fuel → noDigitHead X = true →
        parseValue fuel (serialize v ++ X) = some (v, X)) ∧
      (∀ vs X, (∀ x ∈ vs, Canonical x) → jsizeList vs ≤ fuel →
        parseArrTail fuel (serializeTail vs ++ ']' :: X) = some (vs, X)) ∧
      (∀ k v X, Canonical v → 1 + jsize v ≤ fuel → noDigitHead X = true →
        parseMember fuel (serializeField (k, v) ++ X) = some ((k, v), X)) ∧
      (∀ fs X, (∀ g ∈ fs, Canonical g.2) → jsizeFieldsList fs ≤ fuel →
        parseObjTail fuel (serializeFieldsTail fs ++ Char.ofNat 125 :: X) = some (fs, X)) := by
  intro fuel
  induction fuel with
  | zero =>
    refine ⟨fun v X _ h _ => ?_, fun vs X _ h => ?_, fun k v X _ h _ => ?_, fun fs X _ h => ?_⟩
    · have := jsize_pos v; omega
    · have := jsizeList_pos vs; omega
    · have := jsize_pos v; omega
    · have := jsizeFieldsList_pos fs; omega
  | succ fl ih =>
    obtain ⟨ih1, ih2, ih3, ih4⟩ := ih
    refine ⟨?_, ?_, ?_, ?_⟩
    · intro v X hc hsz hX
      cases hc with
      | null =>
        rw [serialize]
        rw [show (['n', 'u', 'l', 'l'] : List Char) ++ X = 'n' :: 'u' :: 'l' :: 'l' :: X from rfl]
        rw [parseValue, skipWs_cons_of_not (by decide)]
        dsimp only
        rw [if_pos rfl, stripPrefix, if_pos rfl, stripPrefix, if_pos rfl, stripPrefix,
          if_pos rfl, stripPrefix]
        rfl
      | bool b =>
        cases b with
        | true =>
          rw [serialize]
          rw [show (['t', 'r', 'u', 'e'] : List Char) ++ X =
            't' :: 'r' :: 'u' :: 'e' :: X from rfl]
          rw [parseValue, skipWs_cons_of_not (by decide)]
          dsimp only
          rw [if_neg (by decide), if_pos rfl, stripPrefix, if_pos rfl, stripPrefix, if_pos rfl,
            stripPrefix, if_pos rfl, stripPrefix]
          rfl
        | false =>
          rw [serialize]
          rw [show (['f', 'a', 'l', 's', 'e'] : List Char) ++ X =
            'f' :: 'a' :: 'l' :: 's' :: 'e' :: X from rfl]
          rw [parseValue, skipWs_cons_of_not (by decide)]
          dsimp only
          rw [if_neg (by decide), if_neg (by decide), if_pos rfl, stripPrefix, if_pos rfl,
            stripPrefix, if_pos rfl, stripPrefix, if_pos rfl, stripPrefix, if_pos rfl,
            stripPrefix]
          rfl
      | num n =>
        by_cases hneg : n < 0
        · rw [serialize, serializeInt, if_pos hneg, List.cons_append]
          rw [parseValue, skipWs_cons_of_not (by decide)]
          dsimp only
          rw [if_neg (by decide), if_neg (by decide), if_neg (by decide), if_neg (by decide),
            if_pos rfl]
          rw [parseDigits_natToBase n.natAbs X hX]
          simp only [Option.map_some']
          have hn : (-(n.natAbs : Int)) = n := by omega
          rw [hn]
        · obtain ⟨d, ds, hds, hd1, hd2⟩ := natToBase10_head n.toNat
          rw [serialize, serializeInt, if_neg hneg, hds, List.cons_append]
          have hws : jsonWs d = false := by
            simp only [jsonWs, decide_eq_false_iff_not]
            omega
          rw [parseValue, skipWs_cons_of_not hws]
          dsimp only
          rw [if_neg (ne_of_toNat_bounds hd1 hd2 (by decide)),
            if_neg (ne_of_toNat_bounds hd1 hd2 (by decide)),
            if_neg (ne_of_toNat_bounds hd1 hd2 (by decide)),
            if_neg (ne_of_toNat_bounds hd1 hd2 (by decide)),
            if_neg (ne_of_toNat_bounds hd1 hd2 (by decide)),
            if_pos (isDig_of_digit ⟨hd1, hd2⟩)]
          have hpd : parseDigits (d :: (ds ++ X)) = some (n.toNat, X) := by
            have hp := parseDigits_natToBase n.toNat X hX
            rw [hds, List.cons_append] at hp
            exact hp
          rw [hpd]
          simp only [Option.map_some']
          have hn : ((n.toNat : Int)) = n := by omega
          rw [hn]
      | str s =>
        rw [serialize, serializeString]
        simp only [List.cons_append, List.append_assoc, List.singleton_append, List.nil_append]
        rw [parseValue, skipWs_cons_of_not (by decide)]
        dsimp only
        rw [if_neg (by decide), if_neg (by decide), if_neg (by decide), if_pos rfl]
        rw [parseStringBody_serializeString]
        simp only [Option.map_some']
      | arr xs helems =>
        cases xs with
        | nil =>
          rw [serialize]
          rw [show (['[', ']'] : List Char) ++ X = '[' :: ']' :: X from rfl]
          rw [parseValue, skipWs_cons_of_not (by decide)]
          dsimp only
          rw [if_neg (by decide), if_neg (by decide), if_neg (by decide), if_neg (by decide),
            if_neg (by decide), if_neg (by decide), if_pos rfl]
          rw [skipWs_cons_of_not (by decide)]
          rw [show startsWith ']' (']' :: X) = true from by rw [startsWith]; simp]
          rw [if_pos rfl]
          rfl
        | cons v vs =>
          rw [jsize] at hsz
          rw [serialize]
          simp only [List.cons_append, List.append_assoc, List.singleton_append, List.nil_append]
          rw [parseValue, skipWs_cons_of_not (by decide)]
          dsimp only
          rw [if_neg (by decide), if_neg (by decide), if_neg (by decide), if_neg (by decide),
            if_neg (by decide), if_neg (by decide), if_pos rfl]
          rw [skipWs_serialize, startsWith_rbracket_serialize, if_neg (by simp)]
          rw [ih1 v (serializeTail vs ++ ']' :: X) (helems v (by simp)) (by omega)
            (noDigitHead_tail_arr vs X)]
          dsimp only
          rw [ih2 vs X (fun x hx => helems x (by simp [hx])) (by omega)]
          rfl
      | obj fs hk hvmem =>
        cases fs with
        | nil =>
          rw [serialize]
          rw [show ([Char.ofNat 123, Char.ofNat 125] : List Char) ++ X =
            Char.ofNat 123 :: Char.ofNat 125 :: X from rfl]
          rw [parseValue, skipWs_cons_of_not (by decide)]
          dsimp only
          rw [if_neg (by decide), if_neg (by decide), if_neg (by decide), if_neg (by decide),
            if_neg (by decide), if_neg (by decide), if_neg (by decide), if_pos rfl]
          rw [skipWs_cons_of_not (by decide)]
          rw [show startsWith (Char.ofNat 125) (Char.ofNat 125 :: X) = true from by
            rw [startsWith]; simp]
          rw [if_pos rfl]
          rfl
        | cons g gs =>
          obtain ⟨k, v⟩ := g
          rw [jsize] at hsz
          dsimp only at hsz
          rw [serialize]
          simp only [List.cons_append, List.append_assoc, List.singleton_append, List.nil_append]
          rw [parseValue, skipWs_cons_of_not (by decide)]
          dsimp only
          rw [if_neg (by decide), if_neg (by decide), if_neg (by decide), if_neg (by decide),
            if_neg (by decide), if_neg (by decide), if_neg (by decide), if_pos rfl]
          rw [skipWs_serializeField, startsWith_rbrace_serializeField, if_neg (by simp)]
          rw [ih3 k v (serializeFieldsTail gs ++ Char.ofNat 125 :: X)
            (hvmem (k, v) (by simp)) (by omega) (noDigitHead_tail_obj gs X)]
          dsimp only
          rw [ih4 gs X (fun g hg => hvmem g (by simp [hg])) (by omega)]
          simp only [Option.map_some']
          rw [objInsertAll_self hk]
    · intro vs X hcs hsz
      cases vs with
      | nil =>
        rw [serializeTail, List.nil_append]
        rw [parseArrTail, skipWs_cons_of_not (by decide)]
        dsimp only
        rw [if_pos rfl]
      | cons w ws =>
        rw [jsizeList] at hsz
        rw [serializeTail]
        simp only [List.cons_append, List.append_assoc, List.nil_append]
        rw [parseArrTail, skipWs_cons_of_not (by decide)]
        dsimp only
        rw [if_neg (by decide), if_pos rfl]
        rw [ih1 w (serializeTail ws ++ ']' :: X) (hcs w (by simp)) (by omega)
          (noDigitHead_tail_arr ws X)]
        dsimp only
        rw [ih2 ws X (fun x hx => hcs x (by simp [hx])) (by omega)]
        rfl
    · intro k v X hc hsz hX
      rw [serializeField, serializeString]
      simp only [List.cons_append, List.append_assoc, List.singleton_append, List.nil_append]
      rw [parseMember, skipWs_cons_of_not (by decide)]
      dsimp only
      rw [if_pos rfl]
      rw [parseStringBody_serializeString]
      dsimp only
      rw [skipWs_cons_of_not (by decide)]
      dsimp only
      rw [if_pos rfl]
      rw [ih1 v X hc (by omega) hX]
      simp only [Option.map_some']
    · intro fs X hcs hsz
      cases fs with
      | nil =>
        rw [serializeFieldsTail, List.nil_append]
        rw [parseObjTail, skipWs_cons_of_not (by decide)]
        dsimp only
        rw [if_pos rfl]
      | cons g gs =>
        obtain ⟨k, v⟩ := g
        rw [jsizeFieldsList] at hsz
        dsimp only at hsz
        rw [serializeFieldsTail]
        simp only [List.cons_append, List.append_assoc, List.nil_append]
        rw [parseObjTail, skipWs_cons_of_not (by decide)]
        dsimp only
        rw [if_neg (by decide), if_pos rfl]
        rw [ih3 k v (serializeFieldsTail gs ++ Char.ofNat 125 :: X) (hcs (k, v) (by simp))
          (by omega) (noDigitHead_tail_obj gs X)]
        dsimp only
        rw [ih4 gs X (fun g hg => hcs g (by simp [hg])) (by omega)]
        rfl

/-- `JSON.parse` inverts `JSON.stringify` on every canonical value. -/
theorem parseJson_serialize {v : Json} (hc : Canonical v) :
    parseJson (serialize v) = some v := by
  have hb := (jsize_le_length (jsize v)).1 v (le_refl _)
  have h1 := (parse_serialize_aux ((serialize v).length + 1)).1 v [] hc (by omega) rfl
  rw [List.append_nil] at h1
  rw [parseJson, h1]
  simp [skipWs]

/-! ## The id generator

`generateId` always advances the counter and consumes one `Math.random()`
draw; it returns `crypto.randomUUID()` when that is available and otherwise
the fallback `timestamp-random-counter` composite.  `Date.now()`,
`Math.random` and `crypto` are runtime oracles, collected in `GenEnv`. -/

structure GenEnv where
  /-- `Date.now()` in milliseconds. -/
  now : Nat
  /-- Successive `Math.random().toString(36).substring(2, 8)` draws. -/
  random : Nat → String
  /-- `crypto.randomUUID` when available and usable, else `none`. -/
  cryptoUUID : Option (Nat → String)

structure GenState where
  idCounter : Nat
  step : Nat

/-- The fallback composite id `timestamp-random-counter`. -/
def mkFallbackId (env : GenEnv) (step counter : Nat) : String :=
  String.mk (natToBase 36 env.now ++ '-' :: (env.random step).data ++
    '-' :: natToBase 10 counter)

def generateId (env : GenEnv) (s : GenState) : String × GenState :=
  let counter := (s.idCounter + 1) % 10000
  let s2 : GenState := ⟨counter, s.step + 1⟩
  match env.cryptoUUID with
  | some f => (f s.step, s2)
  | none => (mkFallbackId env s.step counter, s2)

/-- `n` sequential `generateId` calls. -/
def genIds (env : GenEnv) : Nat → GenState → List String
  | 0, _ => []
  | n + 1, s => (generateId env s).1 :: genIds env n (generateId env s).2

/-! ## The task store -/

inductive Priority where
  | low
  | medium
  | high
  deriving DecidableEq

structure Task where
  id : String
  title : String
  description : Option String
  assignee : String
  priority : Priority
  isCompleted : Bool
  createdAt : Nat
  deriving DecidableEq

/-- `toggleTask`: flip `isCompleted` on every task whose id matches. -/
def toggleTask (taskId : String) (tasks : List Task) : List Task :=
  tasks.map (fun t => if t.id = taskId then { t with isCompleted := !t.isCompleted } else t)

/-- `deleteTask`: keep the tasks whose id differs. -/
def deleteTask (taskId : String) (tasks : List Task) : List Task :=
  tasks.filter (fun t => t.id != taskId)

structure ManualAddResult where
  tasks : List Task
  gen : GenState
  added : Bool

/-- `handleManualAdd`: no-op when the trimmed title is empty, otherwise
prepend a fresh task built from the form state. -/
def handleManualAdd (env : GenEnv) (g : GenState) (manualTitle : String)
    (manualAssignee : String) (manualPriority : Priority) (tasks : List Task) :
    ManualAddResult :=
  if jsTrim manualTitle.data = [] then ⟨tasks, g, false⟩
  else
    ⟨{ id := (generateId env g).1,
       title := String.mk (jsTrim manualTitle.data),
       description := none,
       assignee := manualAssignee,
       priority := manualPriority,
       isCompleted := false,
       createdAt := env.now } :: tasks,
      (generateId env g).2, true⟩

/-! ## The dashboard projections -/

def SISTERS : List String := ["Anna", "Bella", "Chloe"]

def totalCompleted (tasks : List Task) : Nat :=
  (tasks.filter (fun t => t.isCompleted)).length

def totalPending (tasks : List Task) : Nat :=
  (tasks.filter (fun t => !t.isCompleted)).length

/-- `Math.round((completed / (completed + pending)) * 100)`, guarded by the
`completed + pending > 0` check; `Math.round x = ⌊x + 1/2⌋` is computed
exactly on the rational `100c/t` as `⌊(200c + t) / 2t⌋`. -/
def overallPercent (tasks : List Task) : Nat :=
  if totalCompleted tasks + totalPending tasks > 0 then
    (200 * totalCompleted tasks + (totalCompleted tasks + totalPending tasks)) /
      (2 * (totalCompleted tasks + totalPending tasks))
  else 0

structure DashboardStats where
  name : String
  completed : Nat
  pending : Nat
  total : Nat
  deriving DecidableEq

def statsFor (tasks : List Task) (sister : String) : DashboardStats :=
  { name := sister,
    completed := ((tasks.filter (fun t => t.assignee == sister)).filter
      (fun t => t.isCompleted)).length,
    pending := ((tasks.filter (fun t => t.assignee == sister)).filter
      (fun t => !t.isCompleted)).length,
    total := (tasks.filter (fun t => t.assignee == sister)).length }

/-! ## Validation / migration of external data

The two places that accept external data normalize each element with an
object spread: the storage-load path backfills `id` and `createdAt`, while
the import path backfills `id` and coerces `isCompleted`. -/

/-- `{ ...t, id: t.id || generateId(), createdAt: t.createdAt || Date.now() }` -/
def loadMigrateElem (env : GenEnv) (g : GenState) (t : Json) : Json × GenState :=
  let idp :=
    if truthy (jsGet t "id") then ((jsGet t "id").getD Json.null, g)
    else (Json.str (generateId env g).1, (generateId env g).2)
  let createdVal :=
    if truthy (jsGet t "createdAt") then (jsGet t "createdAt").getD Json.null
    else Json.num env.now
  (Json.obj (objInsert (objInsert (spreadFields t) "id" idp.1) "createdAt" createdVal), idp.2)

/-- `{ ...t, id: t.id || generateId(), isCompleted: !!t.isCompleted }` -/
def importMigrateElem (env : GenEnv) (g : GenState) (t : Json) : Json × GenState :=
  let idp :=
    if truthy (jsGet t "id") then ((jsGet t "id").getD Json.null, g)
    else (Json.str (generateId env g).1, (generateId env g).2)
  let completedVal := Json.bool (truthy (jsGet t "isCompleted"))
  (Json.obj (objInsert (objInsert (spreadFields t) "id" idp.1) "isCompleted" completedVal),
    idp.2)

/-- `array.map` with the generator state threaded left to right. -/
def migrateList (f : GenState → Json → Json × GenState) :
    GenState → List Json → List Json × GenState
  | g, [] => ([], g)
  | g, t :: rest =>
    ((f g t).1 :: (migrateList f (f g t).2 rest).1, (migrateList f (f g t).2 rest).2)

def loadMigrate (env : GenEnv) (g : GenState) (items : List Json) : List Json × GenState :=
  migrateList (loadMigrateElem env) g items

def importMigrate (env : GenEnv) (g : GenState) (items : List Json) : List Json × GenState :=
  migrateList (importMigrateElem env) g items

/-- The `useState` initializer: parse the persisted text if present, require a
top-level array, migrate each record; corruption falls back to the empty
collection. -/
def loadTasks (env : GenEnv) (g : GenState) (saved : Option String) : List Json × GenState :=
  match saved with
  | none => ([], g)
  | some s =>
    match parseJson s.data with
    | some (Json.arr items) => loadMigrate env g items
    | _ => ([], g)

/-! ## Sync code export / import -/

def getExportCode (tasks : List Json) : String :=
  match btoa (encodeURIComponent (serialize (Json.arr tasks))) with
  | some code => String.mk code
  | none => "Error generating code"

/-- `JSON.parse(decodeURIComponent(atob(code)))` as one failable pipeline. -/
def decodeSyncCode (code : List Char) : Option Json :=
  (atob code).bind (fun bin => (decodeURIComponent bin).bind (fun txt => parseJson txt))

inductive ImportOutcome where
  | noop
  | applied
  | failed
  deriving DecidableEq

/-- `handleImport`: empty input is silently ignored; a decoded array replaces
the whole collection after migration; any decode failure or non-array leaves
the collection untouched and reports an error message. -/
def handleImport (env : GenEnv) (importCode : String) (tasks : List Json) (g : GenState) :
    (List Json × GenState) × ImportOutcome :=
  if jsTrim importCode.data = [] then ((tasks, g), ImportOutcome.noop)
  else
    match decodeSyncCode (jsTrim importCode.data) with
    | some (Json.arr items) => (importMigrate env g items, ImportOutcome.applied)
    | some _ => ((tasks, g), ImportOutcome.failed)
    | none => ((tasks, g), ImportOutcome.failed)

/-- A task collection element every encoded task satisfies: an actual
JavaScript object (distinct keys, canonical throughout), a truthy `id` and a
boolean `isCompleted`. -/
def ValidTaskJson (t : Json) : Prop :=
  Canonical t ∧ truthy (jsGet t "id") = true ∧ ∃ b, jsGet t "isCompleted" = some (Json.bool b)

/-! ## Identity of the import migration on valid task objects -/

theorem objInsert_self : ∀ {fs : List (String × Json)} {k : String} {v : Json},
    lookupField fs k = some v → objInsert fs k v = fs := by
  intro fs
  induction fs with
  | nil => intro k v h; simp [lookupField] at h
  | cons f rest ih =>
    intro k v h
    rw [lookupField] at h
    by_cases hk : f.1 = k
    · rw [if_pos hk] at h
      obtain ⟨k0, v0⟩ := f
      simp only at hk h
      injection h with h2
      rw [objInsert, if_pos hk, ← hk, ← h2]
    · rw [if_neg hk] at h
      rw [objInsert, if_neg hk, ih h]

theorem importMigrateElem_valid (env : GenEnv) (g : GenState) {t : Json}
    (h : ValidTaskJson t) : importMigrateElem env g t = (t, g) := by
  obtain ⟨hcan, hid, b, hbool⟩ := h
  cases t with
  | obj fs =>
    obtain ⟨idv, hidv⟩ : ∃ idv, jsGet (Json.obj fs) "id" = some idv := by
      cases hv : jsGet (Json.obj fs) "id" with
      | none => rw [hv] at hid; simp [truthy] at hid
      | some x => exact ⟨x, rfl⟩
    rw [importMigrateElem, if_pos hid, hidv]
    simp only [Option.getD_some]
    have hlook : lookupField fs "id" = some idv := hidv
    have hlook2 : lookupField fs "isCompleted" = some (Json.bool b) := hbool
    rw [show spreadFields (Json.obj fs) = fs from rfl, objInsert_self hlook]
    rw [hbool]
    rw [show truthy (some (Json.bool b)) = b from rfl, objInsert_self hlook2]
  | null => simp [jsGet] at hbool
  | bool b2 => simp [jsGet] at hbool
  | num n => simp [jsGet] at hbool
  | str s => simp [jsGet] at hbool
  | arr xs => simp [jsGet] at hbool

theorem importMigrate_valid (env : GenEnv) :
    ∀ (items : List Json) (g : GenState), (∀ t ∈ items, ValidTaskJson t) →
    importMigrate env g items = (items, g) := by
  intro items
  induction items with
  | nil => intro g _; rfl
  | cons t rest ih =>
    intro g h
    rw [importMigrate, migrateList]
    have he := importMigrateElem_valid env g (h t (by simp))
    have hr := ih g (fun x hx => h x (by simp [hx]))
    rw [importMigrate] at hr
    rw [he]
    simp only
    rw [hr]

/-! ## The export pipeline always produces a clean base64 string -/

theorem toNat_toHexChar_lt {m : Nat} (h : m < 16) : (toHexChar m).toNat < 128 := by
  rw [toHexChar]
  by_cases h10 : m < 10
  · rw [if_pos h10, toNat_ofNat_lt (by omega)]; omega
  · rw [if_neg h10, toNat_ofNat_lt (by omega)]; omega

theorem utf8Bytes_lt256 {n : Nat} (hn : n < 1114112) : ∀ b ∈ utf8Bytes n, b < 256 := by
  intro b hb
  rw [utf8Bytes] at hb
  by_cases h1 : n < 128
  · rw [if_pos h1] at hb; simp at hb; omega
  · rw [if_neg h1] at hb
    by_cases h2 : n < 2048
    · rw [if_pos h2] at hb
      simp at hb
      rcases hb with rfl | rfl <;> omega
    · rw [if_neg h2] at hb
      by_cases h3 : n < 65536
      · rw [if_pos h3] at hb
        simp at hb
        rcases hb with rfl | rfl | rfl <;> omega
      · rw [if_neg h3] at hb
        simp at hb
        rcases hb with rfl | rfl | rfl | rfl <;> omega

theorem encodeURIComponent_lt256 (s : List Char) :
    ∀ c ∈ encodeURIComponent s, c.toNat < 256 := by
  intro c hc
  rw [encodeURIComponent] at hc
  rw [List.mem_flatten] at hc
  obtain ⟨l, hl, hcl⟩ := hc
  rw [List.mem_map] at hl
  obtain ⟨x, _, rfl⟩ := hl
  rw [encodeURIComponentChar] at hcl
  by_cases hu : isUriUnreserved x
  · rw [if_pos hu] at hcl
    simp only [List.mem_singleton] at hcl
    subst hcl
    simp only [isUriUnreserved, decide_eq_true_eq] at hu
    omega
  · rw [if_neg hu] at hcl
    rw [List.mem_flatten] at hcl
    obtain ⟨l2, hl2, hcl2⟩ := hcl
    rw [List.mem_map] at hl2
    obtain ⟨byt, hbyt, rfl⟩ := hl2
    have hx : x.toNat < 1114112 := by
      have hv := x.valid
      simp only [Nat.isValidChar, UInt32.isValidChar] at hv
      have : x.toNat = x.val.toNat := rfl
      omega
    have hb : byt < 256 := utf8Bytes_lt256 hx byt hbyt
    rw [pctByte] at hcl2
    simp only [List.mem_cons, List.not_mem_nil, or_false] at hcl2
    rcases hcl2 with rfl | rfl | rfl
    · decide
    · have := toNat_toHexChar_lt (show byt / 16 < 16 by omega); omega
    · have := toNat_toHexChar_lt (show byt % 16 < 16 by omega); omega

theorem getExportCode_eq (tasks : List Json) :
    getExportCode tasks =
      String.mk (b64Encode ((encodeURIComponent (serialize (Json.arr tasks))).map
        Char.toNat)) := by
  rw [getExportCode, btoa, if_pos]
  rw [List.all_eq_true]
  intro c hc
  have := encodeURIComponent_lt256 (serialize (Json.arr tasks)) c hc
  simpa using this

theorem atob_b64Encode {s : List Char} (h : ∀ c ∈ s, c.toNat < 256) :
    atob (b64Encode (s.map Char.toNat)) = some s := by
  have hb : ∀ x ∈ s.map Char.toNat, x < 256 := by
    intro x hx
    obtain ⟨c, hc, rfl⟩ := List.mem_map.mp hx
    exact h c hc
  rw [atob,
    filter_eq_self_of_forall (fun c hc => by rw [b64Encode_not_ws hb c hc]; rfl),
    b64DecodeChunks_b64Encode hb]
  show some (List.map Char.ofNat (List.map Char.toNat s)) = some s
  rw [map_ofNat_toNat]

theorem b64Char_not_jsws {n : Nat} (h : n < 64) : isJsWs (b64Char n) = false := by
  interval_cases n <;> decide

theorem b64Encode_not_jsws {bs : List Nat} (hb : ∀ x ∈ bs, x < 256) :
    ∀ c ∈ b64Encode bs, isJsWs c = false := by
  induction bs using b64Encode.induct with
  | case1 => intro c hc; simp [b64Encode] at hc
  | case2 a =>
    intro c hc
    have ha : a < 256 := hb a (by simp)
    simp only [b64Encode, List.mem_cons, List.not_mem_nil, or_false] at hc
    rcases hc with rfl | rfl | rfl | rfl
    · exact b64Char_not_jsws (by omega)
    · exact b64Char_not_jsws (by omega)
    · decide
    · decide
  | case3 a b =>
    intro c hc
    have ha : a < 256 := hb a (by simp)
    have hbb : b < 256 := hb b (by simp)
    simp only [b64Encode, List.mem_cons, List.not_mem_nil, or_false] at hc
    rcases hc with rfl | rfl | rfl | rfl
    · exact b64Char_not_jsws (by omega)
    · exact b64Char_not_jsws (by omega)
    · exact b64Char_not_jsws (by omega)
    · decide
  | case4 a b c rest ih =>
    intro x hx
    have ha : a < 256 := hb a (by simp)
    have hbb : b < 256 := hb b (by simp)
    have hcc : c < 256 := hb c (by simp)
    simp only [b64Encode, List.mem_cons] at hx
    rcases hx with rfl | rfl | rfl | rfl | hx
    · exact b64Char_not_jsws (by omega)
    · exact b64Char_not_jsws (by omega)
    · exact b64Char_not_jsws (by omega)
    · exact b64Char_not_jsws (by omega)
    · exact ih (fun y hy => hb y (by simp [hy])) x hx

theorem b64Encode_ne_nil {bs : List Nat} (h : bs ≠ []) : b64Encode bs ≠ [] := by
  match bs, h with
  | [a], _ => rw [b64Encode]; simp
  | [a, b], _ => rw [b64Encode]; simp
  | a :: b :: c :: rest, _ => rw [b64Encode]; simp

theorem serialize_arr_ne_nil (tasks : List Json) :
    serialize (Json.arr tasks) ≠ [] := by
  obtain ⟨c, cs, hv, _, _⟩ := serialize_head (Json.arr tasks)
  rw [hv]
  simp

theorem encodeURIComponent_ne_nil {s : List Char} (h : s ≠ []) :
    encodeURIComponent s ≠ [] := by
  obtain ⟨c, cs, rfl⟩ := List.exists_cons_of_ne_nil h
  rw [encodeURIComponent, List.map_cons, List.flatten_cons]
  intro hx
  rcases List.append_eq_nil.mp hx with ⟨h1, _⟩
  rw [encodeURIComponentChar] at h1
  by_cases hu : isUriUnreserved c
  · rw [if_pos hu] at h1; simp at h1
  · rw [if_neg hu] at h1
    have hx2 : c.toNat < 1114112 := by
      have hv := c.valid
      simp only [Nat.isValidChar, UInt32.isValidChar] at hv
      have : c.toNat = c.val.toNat := rfl
      omega
    rw [utf8Bytes] at h1
    by_cases h128 : c.toNat < 128
    · rw [if_pos h128] at h1; simp [pctByte] at h1
    · rw [if_neg h128] at h1
      by_cases h2048 : c.toNat < 2048
      · rw [if_pos h2048] at h1; simp [pctByte] at h1
      · rw [if_neg h2048] at h1
        by_cases h65536 : c.toNat < 65536
        · rw [if_pos h65536] at h1; simp [pctByte] at h1
        · rw [if_neg h65536] at h1; simp [pctByte] at h1

theorem data_mk (l : List Char) : (String.mk l).data = l := rfl

/-- The full export / import round trip: importing the sync code produced by
exporting a valid task collection replaces the collection with exactly the
original tasks and reports success. -/
theorem handleImport_getExportCode (env : GenEnv) (g : GenState)
    (current tasks : List Json) (h : ∀ t ∈ tasks, ValidTaskJson t) :
    handleImport env (getExportCode tasks) current g = ((tasks, g), ImportOutcome.applied) := by
  have hcodes : ∀ c ∈ encodeURIComponent (serialize (Json.arr tasks)), c.toNat < 256 :=
    encodeURIComponent_lt256 _
  have hbytes : ∀ x ∈ (encodeURIComponent (serialize (Json.arr tasks))).map Char.toNat,
      x < 256 := by
    intro x hx
    obtain ⟨c, hc, rfl⟩ := List.mem_map.mp hx
    exact hcodes c hc
  rw [getExportCode_eq, handleImport, data_mk,
    jsTrim_eq_self (b64Encode_not_jsws hbytes)]
  have hne : b64Encode ((encodeURIComponent (serialize (Json.arr tasks))).map Char.toNat) ≠
      [] := by
    apply b64Encode_ne_nil
    intro hmap
    exact encodeURIComponent_ne_nil (serialize_arr_ne_nil tasks) (List.map_eq_nil_iff.mp hmap)
  rw [if_neg hne, decodeSyncCode, atob_b64Encode hcodes, Option.some_bind,
    decodeURIComponent_encodeURIComponent, Option.some_bind,
    parseJson_serialize (Canonical.arr tasks (fun t ht => (h t ht).1))]
  dsimp only
  rw [importMigrate_valid env tasks g h]

/-! ## Distinctness of generated ids -/

theorem genIds_length (env : GenEnv) : ∀ n s, (genIds env n s).length = n := by
  intro n
  induction n with
  | zero => intro s; rfl
  | succ m ih => intro s; rw [genIds, List.length_cons, ih]

theorem genIds_eq_map (env : GenEnv) (hc : env.cryptoUUID = none) :
    ∀ n s, genIds env n s =
      (List.range n).map
        (fun i => mkFallbackId env (s.step + i) ((s.idCounter + i + 1) % 10000)) := by
  intro n
  induction n with
  | zero => intro s; simp [genIds]
  | succ m ih =>
    intro s
    rw [genIds]
    have hgen : generateId env s =
        (mkFallbackId env s.step ((s.idCounter + 1) % 10000),
          ⟨(s.idCounter + 1) % 10000, s.step + 1⟩) := by
      rw [generateId, hc]
    rw [hgen]
    simp only
    rw [ih ⟨(s.idCounter + 1) % 10000, s.step + 1⟩]
    rw [List.range_succ_eq_map, List.map_cons, List.map_map]
    have hfun : (fun i => mkFallbackId env (s.step + 1 + i)
        (((s.idCounter + 1) % 10000 + i + 1) % 10000)) =
        ((fun i => mkFallbackId env (s.step + i) ((s.idCounter + i + 1) % 10000)) ∘
          Nat.succ) := by
      funext i
      have h1 : s.step + 1 + i = s.step + (i + 1) := by omega
      have h2 : ((s.idCounter + 1) % 10000 + i + 1) % 10000 =
          (s.idCounter + (i + 1) + 1) % 10000 := by omega
      simp [Function.comp, h1, h2]
    rw [hfun]
    simp

/-- Splitting a character list at a dash is unambiguous when both prefixes are
dash-free. -/
theorem dashSplit : ∀ (A : List Char), ∀ {B C D : List Char}, '-' ∉ A → '-' ∉ B →
    A ++ '-' :: C = B ++ '-' :: D → A = B ∧ C = D := by
  intro A
  induction A with
  | nil =>
    intro B C D _ hB h
    cases B with
    | nil =>
      simp only [List.nil_append] at h
      injection h with _ h2
      exact ⟨rfl, h2⟩
    | cons b bs =>
      simp only [List.nil_append, List.cons_append] at h
      injection h with h1 _
      rw [← h1] at hB
      exact absurd (List.mem_cons_self _ _) hB
  | cons a as ih =>
    intro B C D hA hB h
    cases B with
    | nil =>
      simp only [List.cons_append, List.nil_append] at h
      injection h with h1 _
      rw [h1] at hA
      exact absurd (List.mem_cons_self _ _) hA
    | cons b bs =>
      simp only [List.cons_append] at h
      injection h with h1 h2
      have hA2 : '-' ∉ as := fun hm => hA (List.mem_cons_of_mem _ hm)
      have hB2 : '-' ∉ bs := fun hm => hB (List.mem_cons_of_mem _ hm)
      obtain ⟨hab, hcd⟩ := ih hA2 hB2 h2
      subst h1
      rw [hab]
      exact ⟨rfl, hcd⟩

theorem mkFallbackId_inj (env : GenEnv) (hrand : ∀ i, '-' ∉ (env.random i).data)
    {i j ci cj : Nat} (h : mkFallbackId env i ci = mkFallbackId env j cj) : ci = cj := by
  rw [mkFallbackId, mkFallbackId] at h
  have hd := congrArg String.data h
  simp only [data_mk] at hd
  rw [List.append_assoc, List.append_assoc] at hd
  have hd2 := List.append_cancel_left hd
  rw [List.cons_append, List.cons_append] at hd2
  injection hd2 with _ hd3
  obtain ⟨_, hc⟩ := dashSplit (env.random i).data (hrand i) (hrand j) hd3
  exact natToBase_injective (by omega) (by omega) hc

theorem genIds_nodup (env : GenEnv) (hcr : env.cryptoUUID = none)
    (hrand : ∀ i, '-' ∉ (env.random i).data) (s : GenState) {n : Nat} (hn : n ≤ 10000) :
    (genIds env n s).Nodup := by
  rw [genIds_eq_map env hcr]
  refine List.Nodup.map_on ?_ (List.nodup_range n)
  intro i hi j hj heq
  rw [List.mem_range] at hi hj
  have hc := mkFallbackId_inj env hrand heq
  omega

/-! ## The persistence scheduler

The save effect runs on every change of `tasks`: its cleanup clears the
pending 500 ms save timeout and a new one is scheduled.  When the timeout
fires, `saveTasks` sets the status to `saving`, performs the storage write,
and either schedules `setSaveStatus('saved')` 500 ms out (on success) or sets
the status to `error` (when `localStorage.setItem` throws).  Timers all have
the same 500 ms delay, so the scheduling-order queue is also due-ordered.
Whether the write throws is an oracle indexed by the attempt number. -/

inductive SaveStatus where
  | saved
  | saving
  | error
  deriving DecidableEq

inductive TimerKind where
  | save (snapshot : List Task)
  | savedStatus
  deriving DecidableEq

def isSaveTimer : Nat × TimerKind → Bool
  | (_, TimerKind.save _) => true
  | (_, TimerKind.savedStatus) => false

structure SchedState where
  timers : List (Nat × TimerKind)
  status : SaveStatus
  statusLog : List (Nat × SaveStatus)
  writes : List (List Task)
  attempts : List (Nat × Bool)
  deriving DecidableEq

/-- Fire every pending timer due at or before `t`, earliest first. -/
def fireTimers (failAt : Nat → Bool) : Nat → Nat → SchedState → SchedState
  | 0, _, s => s
  | fuel + 1, t, s =>
    match s.timers with
    | [] => s
    | (due, k) :: rest =>
      if due ≤ t then
        match k with
        | TimerKind.savedStatus =>
          fireTimers failAt fuel t
            { s with
              timers := rest
              status := SaveStatus.saved
              statusLog := s.statusLog ++ [(due, SaveStatus.saved)] }
        | TimerKind.save snap =>
          if failAt s.attempts.length then
            fireTimers failAt fuel t
              { s with
                timers := rest
                status := SaveStatus.error
                statusLog := s.statusLog ++
                  [(due, SaveStatus.saving), (due, SaveStatus.error)]
                attempts := s.attempts ++ [(due, false)] }
          else
            fireTimers failAt fuel t
              { s with
                timers := rest ++ [(due + 500, TimerKind.savedStatus)]
                status := SaveStatus.saving
                statusLog := s.statusLog ++ [(due, SaveStatus.saving)]
                writes := s.writes ++ [snap]
                attempts := s.attempts ++ [(due, true)] }
      else s

def advance (failAt : Nat → Bool) (t : Nat) (s : SchedState) : SchedState :=
  fireTimers failAt (s.timers.length + 2) t s

/-- One committed change of `tasks` at time `t`: timers due so far have fired,
the cleanup clears the pending save timeout, the effect sets a new one. -/
def applyChange (failAt : Nat → Bool) (s : SchedState) (ev : Nat × List Task) : SchedState :=
  let s2 := advance failAt ev.1 s
  { s2 with timers := s2.timers.filter (fun p => !isSaveTimer p) ++
      [(ev.1 + 500, TimerKind.save ev.2)] }

def initSched : SchedState :=
  ⟨[], SaveStatus.saved, [], [], []⟩

def runChanges (failAt : Nat → Bool) (changes : List (Nat × List Task)) : SchedState :=
  changes.foldl (applyChange failAt) initSched

/-- The scheduler state observed at time `t`, after the given changes. -/
def observeAt (failAt : Nat → Bool) (changes : List (Nat × List Task)) (t : Nat) :
    SchedState :=
  advance failAt t (runChanges failAt changes)

/-! ## Debounce coalescing -/

/-- The scheduler state between changes when no timer has fired yet: one
pending save due 500 ms after the latest change, nothing written. -/
def tightState (t : Nat) (c : List Task) : SchedState :=
  ⟨[(t + 500, TimerKind.save c)], SaveStatus.saved, [], [], []⟩

theorem applyChange_init (failAt : Nat → Bool) (t : Nat) (c : List Task) :
    applyChange failAt initSched (t, c) = tightState t c := rfl

theorem applyChange_tight (failAt : Nat → Bool) {tc t2 : Nat} (cc c2 : List Task)
    (h : t2 < tc + 500) :
    applyChange failAt (tightState tc cc) (t2, c2) = tightState t2 c2 := by
  have hadv : advance failAt t2 (tightState tc cc) = tightState tc cc := by
    show fireTimers failAt 3 t2 (tightState tc cc) = tightState tc cc
    rw [fireTimers]
    dsimp only [tightState]
    rw [if_neg (by omega)]
  rw [applyChange]
  dsimp only
  rw [hadv]
  rfl

theorem fold_tight (failAt : Nat → Bool) :
    ∀ (cs : List (Nat × List Task)) (tc : Nat) (cc : List Task),
      List.Chain' (fun a b => a.1 < b.1 ∧ b.1 < a.1 + 500) ((tc, cc) :: cs) →
      cs.foldl (applyChange failAt) (tightState tc cc) =
        tightState (((tc, cc) :: cs).getLast (by simp)).1
          (((tc, cc) :: cs).getLast (by simp)).2 := by
  intro cs
  induction cs with
  | nil => intro tc cc _; rfl
  | cons e2 cs2 ih =>
    intro tc cc hch
    obtain ⟨t2, c2⟩ := e2
    rw [List.foldl_cons,
      applyChange_tight failAt cc c2 (List.chain'_cons.mp hch).1.2]
    have := ih t2 c2 (List.chain'_cons.mp hch).2
    rw [this]
    congr 1

theorem advance_tight_success (failAt : Nat → Bool) {t T : Nat} (c : List Task)
    (hdue2 : t + 1000 ≤ T) (hok : failAt 0 = false) :
    advance failAt T (tightState t c) =
      ⟨[], SaveStatus.saved, [(t + 500, SaveStatus.saving), (t + 1000, SaveStatus.saved)],
        [c], [(t + 500, true)]⟩ := by
  show fireTimers failAt 3 T (tightState t c) = _
  rw [fireTimers]
  dsimp only [tightState]
  rw [if_pos (by omega : t + 500 ≤ T)]
  rw [show ([] : List (Nat × Bool)).length = 0 from rfl, hok]
  rw [if_neg (by decide : ¬ (false = true))]
  simp only [List.nil_append, show t + 500 + 500 = t + 1000 from by omega]
  rw [fireTimers]
  dsimp only
  rw [if_pos hdue2]
  rw [fireTimers]
  simp

/-! ## Save status: the error state persists

All timers carry the same 500 ms delay, so the pending queue only ever holds
at most one deferred `saved`-status flip followed by at most one deferred
save, and a failed save leaves no pending `saved` flip behind.  These facts
form an invariant of every reachable scheduler state. -/

inductive TimersShape : List (Nat × TimerKind) → Prop
  | empty : TimersShape []
  | justSave (d : Nat) (c : List Task) : TimersShape [(d, TimerKind.save c)]
  | justSaved (d : Nat) : TimersShape [(d, TimerKind.savedStatus)]
  | both (d1 d2 : Nat) (c : List Task) (h : d1 ≤ d2) :
      TimersShape [(d1, TimerKind.savedStatus), (d2, TimerKind.save c)]

structure SchedInv (now : Nat) (s : SchedState) : Prop where
  shape : TimersShape s.timers
  dueBound : ∀ p ∈ s.timers, p.1 ≤ now + 500
  failInv : ∀ w, s.attempts.getLast? = some (w, false) →
    s.status = SaveStatus.error ∧ (∀ p ∈ s.timers, isSaveTimer p = true) ∧
    ∃ pre, s.statusLog = pre ++ [(w, SaveStatus.saving), (w, SaveStatus.error)]

theorem initSched_inv (now : Nat) : SchedInv now initSched := by
  refine ⟨TimersShape.empty, by simp [initSched], fun w hw => ?_⟩
  simp [initSched] at hw

theorem last_attempt_true {att : List (Nat × Bool)} {d w : Nat}
    (hw : (att ++ [(d, true)]).getLast? = some (w, false)) : False := by
  rw [List.getLast?_concat] at hw
  injection hw with hw2
  have := congrArg Prod.snd hw2
  simp at this

theorem advance_inv (failAt : Nat → Bool) {now t : Nat} (s : SchedState)
    (hinv : SchedInv now s) (hnt : now ≤ t) : SchedInv t (advance failAt t s) := by
  obtain ⟨tm, st, lg, wr, att⟩ := s
  obtain ⟨hshape, hdue, hfail⟩ := hinv
  dsimp only at hshape hdue hfail
  cases hshape with
  | empty =>
    have hadv : advance failAt t (⟨[], st, lg, wr, att⟩ : SchedState) =
        ⟨[], st, lg, wr, att⟩ := by
      show fireTimers failAt 2 t _ = _
      rw [fireTimers]
    rw [hadv]
    refine ⟨TimersShape.empty, by simp, fun w hw => ?_⟩
    obtain ⟨h1, _, h3⟩ := hfail w hw
    exact ⟨h1, by simp, h3⟩
  | justSave d c =>
    by_cases h1 : d ≤ t
    · by_cases h2 : failAt att.length = true
      · have hadv : advance failAt t (⟨[(d, TimerKind.save c)], st, lg, wr, att⟩ : SchedState) =
            ⟨[], SaveStatus.error, lg ++ [(d, SaveStatus.saving), (d, SaveStatus.error)], wr,
              att ++ [(d, false)]⟩ := by
          show fireTimers failAt 3 t _ = _
          rw [fireTimers]
          dsimp only
          rw [if_pos h1, if_pos h2, fireTimers]
        rw [hadv]
        refine ⟨TimersShape.empty, by simp, fun w hw => ?_⟩
        rw [List.getLast?_concat] at hw
        injection hw with hw2
        have hdw : d = w := congrArg Prod.fst hw2
        subst hdw
        exact ⟨rfl, by simp, ⟨lg, rfl⟩⟩
      · by_cases h3 : d + 500 ≤ t
        · have hadv : advance failAt t
              (⟨[(d, TimerKind.save c)], st, lg, wr, att⟩ : SchedState) =
              ⟨[], SaveStatus.saved,
                lg ++ [(d, SaveStatus.saving)] ++ [(d + 500, SaveStatus.saved)],
                wr ++ [c], att ++ [(d, true)]⟩ := by
            show fireTimers failAt 3 t _ = _
            rw [fireTimers]
            dsimp only
            rw [if_pos h1, if_neg h2]
            simp only [List.nil_append]
            rw [fireTimers]
            dsimp only
            rw [if_pos h3, fireTimers]
          rw [hadv]
          exact ⟨TimersShape.empty, by simp, fun w hw => absurd (last_attempt_true hw) id⟩
        · have hadv : advance failAt t
              (⟨[(d, TimerKind.save c)], st, lg, wr, att⟩ : SchedState) =
              ⟨[(d + 500, TimerKind.savedStatus)], SaveStatus.saving,
                lg ++ [(d, SaveStatus.saving)], wr ++ [c], att ++ [(d, true)]⟩ := by
            show fireTimers failAt 3 t _ = _
            rw [fireTimers]
            dsimp only
            rw [if_pos h1, if_neg h2]
            simp only [List.nil_append]
            rw [fireTimers]
            dsimp only
            rw [if_neg h3]
          rw [hadv]
          refine ⟨TimersShape.justSaved _, ?_, fun w hw => absurd (last_attempt_true hw) id⟩
          intro p hp
          simp only [List.mem_singleton] at hp
          subst hp
          simp only
          omega
    · have hadv : advance failAt t (⟨[(d, TimerKind.save c)], st, lg, wr, att⟩ : SchedState) =
          ⟨[(d, TimerKind.save c)], st, lg, wr, att⟩ := by
        show fireTimers failAt 3 t _ = _
        rw [fireTimers]
        dsimp only
        rw [if_neg h1]
      rw [hadv]
      refine ⟨TimersShape.justSave d c, ?_, hfail⟩
      intro p hp
      have := hdue p hp
      omega
  | justSaved d =>
    by_cases h1 : d ≤ t
    · have hadv : advance failAt t (⟨[(d, TimerKind.savedStatus)], st, lg, wr, att⟩ :
          SchedState) =
          ⟨[], SaveStatus.saved, lg ++ [(d, SaveStatus.saved)], wr, att⟩ := by
        show fireTimers failAt 3 t _ = _
        rw [fireTimers]
        dsimp only
        rw [if_pos h1, fireTimers]
      rw [hadv]
      refine ⟨TimersShape.empty, by simp, fun w hw => ?_⟩
      obtain ⟨_, hsv, _⟩ := hfail w hw
      have := hsv (d, TimerKind.savedStatus) (by simp)
      simp [isSaveTimer] at this
    · have hadv : advance failAt t (⟨[(d, TimerKind.savedStatus)], st, lg, wr, att⟩ :
          SchedState) =
          ⟨[(d, TimerKind.savedStatus)], st, lg, wr, att⟩ := by
        show fireTimers failAt 3 t _ = _
        rw [fireTimers]
        dsimp only
        rw [if_neg h1]
      rw [hadv]
      refine ⟨TimersShape.justSaved d, ?_, hfail⟩
      intro p hp
      have := hdue p hp
      omega
  | both d1 d2 c hd12 =>
    by_cases h1 : d1 ≤ t
    · by_cases h2 : d2 ≤ t
      · by_cases h3 : failAt att.length = true
        · have hadv : advance failAt t
              (⟨[(d1, TimerKind.savedStatus), (d2, TimerKind.save c)], st, lg, wr, att⟩ :
                SchedState) =
              ⟨[], SaveStatus.error,
                lg ++ [(d1, SaveStatus.saved)] ++
                  [(d2, SaveStatus.saving), (d2, SaveStatus.error)],
                wr, att ++ [(d2, false)]⟩ := by
            show fireTimers failAt 4 t _ = _
            rw [fireTimers]
            dsimp only
            rw [if_pos h1]
            rw [fireTimers]
            dsimp only
            rw [if_pos h2, if_pos h3, fireTimers]
          rw [hadv]
          refine ⟨TimersShape.empty, by simp, fun w hw => ?_⟩
          rw [List.getLast?_concat] at hw
          injection hw with hw2
          have hdw : d2 = w := congrArg Prod.fst hw2
          subst hdw
          exact ⟨rfl, by simp, ⟨lg ++ [(d1, SaveStatus.saved)], rfl⟩⟩
        · by_cases h4 : d2 + 500 ≤ t
          · have hadv : advance failAt t
                (⟨[(d1, TimerKind.savedStatus), (d2, TimerKind.save c)], st, lg, wr, att⟩ :
                  SchedState) =
                ⟨[], SaveStatus.saved,
                  lg ++ [(d1, SaveStatus.saved)] ++ [(d2, SaveStatus.saving)] ++
                    [(d2 + 500, SaveStatus.saved)],
                  wr ++ [c], att ++ [(d2, true)]⟩ := by
              show fireTimers failAt 4 t _ = _
              rw [fireTimers]
              dsimp only
              rw [if_pos h1]
              rw [fireTimers]
              dsimp only
              rw [if_pos h2, if_neg h3]
              simp only [List.nil_append]
              rw [fireTimers]
              dsimp only
              rw [if_pos h4, fireTimers]
            rw [hadv]
            exact ⟨TimersShape.empty, by simp, fun w hw => absurd (last_attempt_true hw) id⟩
          · have hadv : advance failAt t
                (⟨[(d1, TimerKind.savedStatus), (d2, TimerKind.save c)], st, lg, wr, att⟩ :
                  SchedState) =
                ⟨[(d2 + 500, TimerKind.savedStatus)], SaveStatus.saving,
                  lg ++ [(d1, SaveStatus.saved)] ++ [(d2, SaveStatus.saving)],
                  wr ++ [c], att ++ [(d2, true)]⟩ := by
              show fireTimers failAt 4 t _ = _
              rw [fireTimers]
              dsimp only
              rw [if_pos h1]
              rw [fireTimers]
              dsimp only
              rw [if_pos h2, if_neg h3]
              simp only [List.nil_append]
              rw [fireTimers]
              dsimp only
              rw [if_neg h4]
            rw [hadv]
            refine ⟨TimersShape.justSaved _, ?_,
              fun w hw => absurd (last_attempt_true hw) id⟩
            intro p hp
            simp only [List.mem_singleton] at hp
            subst hp
            simp only
            omega
      · have hadv : advance failAt t
            (⟨[(d1, TimerKind.savedStatus), (d2, TimerKind.save c)], st, lg, wr, att⟩ :
              SchedState) =
            ⟨[(d2, TimerKind.save c)], SaveStatus.saved, lg ++ [(d1, SaveStatus.saved)],
              wr, att⟩ := by
          show fireTimers failAt 4 t _ = _
          rw [fireTimers]
          dsimp only
          rw [if_pos h1]
          rw [fireTimers]
          dsimp only
          rw [if_neg h2]
        rw [hadv]
        refine ⟨TimersShape.justSave d2 c, ?_, fun w hw => ?_⟩
        · intro p hp
          simp only [List.mem_singleton] at hp
          subst hp
          have := hdue (d2, TimerKind.save c) (by simp)
          simp only at this ⊢
          omega
        · obtain ⟨_, hsv, _⟩ := hfail w hw
          have := hsv (d1, TimerKind.savedStatus) (by simp)
          simp [isSaveTimer] at this
    · have hadv : advance failAt t
          (⟨[(d1, TimerKind.savedStatus), (d2, TimerKind.save c)], st, lg, wr, att⟩ :
            SchedState) =
          ⟨[(d1, TimerKind.savedStatus), (d2, TimerKind.save c)], st, lg, wr, att⟩ := by
        show fireTimers failAt 4 t _ = _
        rw [fireTimers]
        dsimp only
        rw [if_neg h1]
      rw [hadv]
      refine ⟨TimersShape.both d1 d2 c hd12, ?_, hfail⟩
      intro p hp
      have := hdue p hp
      omega

theorem shape_after_change {t : Nat} {tm : List (Nat × TimerKind)} (hs : TimersShape tm)
    (hdue : ∀ p ∈ tm, p.1 ≤ t + 500) (c : List Task) :
    TimersShape (tm.filter (fun p => !isSaveTimer p) ++ [(t + 500, TimerKind.save c)]) ∧
    (∀ p ∈ tm.filter (fun p => !isSaveTimer p) ++ [(t + 500, TimerKind.save c)],
      p.1 ≤ t + 500) ∧
    ((∀ p ∈ tm, isSaveTimer p = true) →
      ∀ p ∈ tm.filter (fun p => !isSaveTimer p) ++ [(t + 500, TimerKind.save c)],
        isSaveTimer p = true) := by
  cases hs with
  | empty =>
    refine ⟨?_, ?_, ?_⟩
    · simpa using TimersShape.justSave (t + 500) c
    · intro p hp
      simp only [List.filter_nil, List.nil_append, List.mem_singleton] at hp
      subst hp
      simp
    · intro _ p hp
      simp only [List.filter_nil, List.nil_append, List.mem_singleton] at hp
      subst hp
      simp [isSaveTimer]
  | justSave d c0 =>
    have hfil : ([(d, TimerKind.save c0)] : List (Nat × TimerKind)).filter
        (fun p => !isSaveTimer p) = [] := by
      simp [isSaveTimer]
    refine ⟨?_, ?_, ?_⟩
    · rw [hfil]
      simpa using TimersShape.justSave (t + 500) c
    · intro p hp
      rw [hfil] at hp
      simp only [List.nil_append, List.mem_singleton] at hp
      subst hp
      simp
    · intro _ p hp
      rw [hfil] at hp
      simp only [List.nil_append, List.mem_singleton] at hp
      subst hp
      simp [isSaveTimer]
  | justSaved d =>
    have hfil : ([(d, TimerKind.savedStatus)] : List (Nat × TimerKind)).filter
        (fun p => !isSaveTimer p) = [(d, TimerKind.savedStatus)] := by
      simp [isSaveTimer]
    have hd : d ≤ t + 500 := hdue (d, TimerKind.savedStatus) (by simp)
    refine ⟨?_, ?_, ?_⟩
    · rw [hfil]
      exact TimersShape.both d (t + 500) c hd
    · intro p hp
      rw [hfil] at hp
      simp only [List.mem_append, List.mem_singleton] at hp
      rcases hp with hp | hp <;> subst hp <;> simpa using hd
    · intro hall p _
      have := hall (d, TimerKind.savedStatus) (by simp)
      simp [isSaveTimer] at this
  | both d1 d2 c0 hd12 =>
    have hfil : ([(d1, TimerKind.savedStatus), (d2, TimerKind.save c0)] :
        List (Nat × TimerKind)).filter (fun p => !isSaveTimer p) =
        [(d1, TimerKind.savedStatus)] := by
      simp [isSaveTimer]
    have hd : d1 ≤ t + 500 := hdue (d1, TimerKind.savedStatus) (by simp)
    refine ⟨?_, ?_, ?_⟩
    · rw [hfil]
      exact TimersShape.both d1 (t + 500) c hd
    · intro p hp
      rw [hfil] at hp
      simp only [List.mem_append, List.mem_singleton] at hp
      rcases hp with hp | hp <;> subst hp <;> simpa using hd
    · intro hall p _
      have := hall (d1, TimerKind.savedStatus) (by simp)
      simp [isSaveTimer] at this

theorem applyChange_inv (failAt : Nat → Bool) {now t : Nat} (s : SchedState)
    (hinv : SchedInv now s) (hnt : now ≤ t) (c : List Task) :
    SchedInv t (applyChange failAt s (t, c)) := by
  obtain ⟨i1, i2, i3⟩ := advance_inv failAt s hinv hnt
  obtain ⟨hsh, hdb, hall⟩ := shape_after_change i1 i2 c
  rw [applyChange]
  dsimp only
  exact ⟨hsh, hdb, fun w hw => by
    obtain ⟨h1, h2, h3⟩ := i3 w hw
    exact ⟨h1, hall h2, h3⟩⟩

def lastTimeFrom (now : Nat) (cs : List (Nat × List Task)) : Nat :=
  cs.foldl (fun _ e => e.1) now

theorem lastTimeFrom_le {T : Nat} : ∀ (cs : List (Nat × List Task)) (now : Nat),
    (∀ e ∈ cs, e.1 ≤ T) → now ≤ T → lastTimeFrom now cs ≤ T := by
  intro cs
  induction cs with
  | nil => intro now _ h; exact h
  | cons e cs ih =>
    intro now hall _
    exact ih e.1 (fun x hx => hall x (by simp [hx])) (hall e (by simp))

theorem runChanges_inv (failAt : Nat → Bool) :
    ∀ (cs : List (Nat × List Task)) (now : Nat) (s : SchedState),
    SchedInv now s → List.Chain' (fun a b => a.1 < b.1) cs → (∀ e ∈ cs, now ≤ e.1) →
    SchedInv (lastTimeFrom now cs) (cs.foldl (applyChange failAt) s) := by
  intro cs
  induction cs with
  | nil => intro now s hinv _ _; exact hinv
  | cons e cs ih =>
    intro now s hinv hchain hge
    obtain ⟨t, c⟩ := e
    have hstep : SchedInv t (applyChange failAt s (t, c)) :=
      applyChange_inv failAt s hinv (hge (t, c) (by simp)) c
    haveI : IsTrans (Nat × List Task) (fun a b => a.1 < b.1) :=
      ⟨fun _ _ _ h1 h2 => Nat.lt_trans h1 h2⟩
    have hpw : List.Pairwise (fun a b : Nat × List Task => a.1 < b.1) ((t, c) :: cs) :=
      (List.chain'_iff_pairwise).mp hchain
    have hrest : ∀ e2 ∈ cs, t ≤ e2.1 := by
      intro e2 he2
      exact Nat.le_of_lt ((List.pairwise_cons.mp hpw).1 e2 he2)
    exact ih t (applyChange failAt s (t, c)) hstep
      (List.Chain'.tail hchain) hrest

/-! ## Reads after the property writes of the migration spreads -/

theorem lookupField_objInsert_self (fs : List (String × Json)) (k : String) (v : Json) :
    lookupField (objInsert fs k v) k = some v := by
  induction fs with
  | nil => simp [objInsert, lookupField]
  | cons f rest ih =>
    rw [objInsert]
    by_cases h : f.1 = k
    · rw [if_pos h]
      simp [lookupField]
    · rw [if_neg h, lookupField, if_neg h, ih]

theorem lookupField_objInsert_other {k k2 : String} (h : ¬ k = k2)
    (fs : List (String × Json)) (v : Json) :
    lookupField (objInsert fs k v) k2 = lookupField fs k2 := by
  induction fs with
  | nil => simp [objInsert, lookupField, h]
  | cons f rest ih =>
    rw [objInsert]
    by_cases hf : f.1 = k
    · rw [if_pos hf, lookupField, if_neg h, lookupField, if_neg (hf ▸ h)]
    · rw [if_neg hf, lookupField, lookupField, ih]

theorem loadMigrateElem_fst (env : GenEnv) (g : GenState) (t : Json) :
    (loadMigrateElem env g t).1 = Json.obj (objInsert
      (objInsert (spreadFields t) "id"
        (if truthy (jsGet t "id") then (jsGet t "id").getD Json.null
         else Json.str (generateId env g).1))
      "createdAt"
      (if truthy (jsGet t "createdAt") then (jsGet t "createdAt").getD Json.null
       else Json.num env.now)) := by
  by_cases hid : truthy (jsGet t "id") = true <;> simp [loadMigrateElem, hid]

theorem importMigrateElem_fst (env : GenEnv) (g : GenState) (t : Json) :
    (importMigrateElem env g t).1 = Json.obj (objInsert
      (objInsert (spreadFields t) "id"
        (if truthy (jsGet t "id") then (jsGet t "id").getD Json.null
         else Json.str (generateId env g).1))
      "isCompleted" (Json.bool (truthy (jsGet t "isCompleted")))) := by
  by_cases hid : truthy (jsGet t "id") = true <;> simp [importMigrateElem, hid]

/-! ## A partition law for the dashboard filters -/

theorem filter_length_partition (p : Task → Bool) : ∀ l : List Task,
    (l.filter p).length + (l.filter (fun t => !p t)).length = l.length := by
  intro l
  induction l with
  | nil => rfl
  | cons t rest ih =>
    rw [List.filter_cons, List.filter_cons]
    cases hp : p t <;> simp [hp] <;> omega

/-! ## Concrete fixtures for the closed instances -/

/-- A generation environment with frozen time, a constant dash-free random
draw, and no `crypto.randomUUID`. -/
def envC : GenEnv := ⟨0, fun _ => "r", none⟩

def gC : GenState := ⟨0, 0⟩

def taskA : Task :=
  ⟨"a", "Buy milk", none, "Anna", Priority.medium, false, 0⟩

/-- A serialized task record with a truthy id and a boolean completion flag. -/
def taskJ : Json := Json.obj [("id", Json.str "a"), ("isCompleted", Json.bool true)]

def tasksC : List Json := [Json.null]

theorem taskJ_valid : ValidTaskJson taskJ := by
  refine ⟨?_, rfl, ⟨true, rfl⟩⟩
  show Canonical (Json.obj [("id", Json.str "a"), ("isCompleted", Json.bool true)])
  refine Canonical.obj _ (by decide) ?_
  intro f hf
  rw [List.mem_cons, List.mem_singleton] at hf
  rcases hf with hf | hf <;> subst hf
  · exact Canonical.str "a"
  · exact Canonical.bool true

/-! ## The claims -/

/-- C1: for every collection of valid task records (truthy id, boolean
isCompleted, canonical JSON fields), importing the sync code produced by the
export — base64 of the percent-encoded JSON text, decoded and re-parsed, then
migrated — replaces the collection with exactly the original records, in
order, and reports success. -/
theorem c1_sync_roundtrip (env : GenEnv) (g : GenState) (current tasks : List Json)
    (h : ∀ t ∈ tasks, ValidTaskJson t) :
    handleImport env (getExportCode tasks) current g = ((tasks, g), ImportOutcome.applied) :=
  handleImport_getExportCode env g current tasks h

theorem c1_sync_roundtrip_witness :
    handleImport envC (getExportCode [taskJ]) [] gC = (([taskJ], gC), ImportOutcome.applied) :=
  c1_sync_roundtrip envC gC [] [taskJ] (fun t ht => by
    rw [List.mem_singleton] at ht
    subst ht
    exact taskJ_valid)

/-- C2 (amended): the two normalization paths differ.  The storage-load path
backfills id (fresh when falsy) and createdAt (current time when falsy) but
leaves isCompleted untouched; the import path backfills id and coerces
isCompleted by truthiness but leaves createdAt untouched.  On both paths every
other field of the record passes through unchanged. -/
theorem c2_migration_fields (env : GenEnv) (g : GenState) (t : Json) :
    (jsGet (loadMigrateElem env g t).1 "id" =
        some (if truthy (jsGet t "id") then (jsGet t "id").getD Json.null
              else Json.str (generateId env g).1) ∧
      jsGet (loadMigrateElem env g t).1 "createdAt" =
        some (if truthy (jsGet t "createdAt") then (jsGet t "createdAt").getD Json.null
              else Json.num env.now) ∧
      ∀ k, ¬ k = "id" → ¬ k = "createdAt" →
        jsGet (loadMigrateElem env g t).1 k = lookupField (spreadFields t) k) ∧
    (jsGet (importMigrateElem env g t).1 "id" =
        some (if truthy (jsGet t "id") then (jsGet t "id").getD Json.null
              else Json.str (generateId env g).1) ∧
      jsGet (importMigrateElem env g t).1 "isCompleted" =
        some (Json.bool (truthy (jsGet t "isCompleted"))) ∧
      ∀ k, ¬ k = "id" → ¬ k = "isCompleted" →
        jsGet (importMigrateElem env g t).1 k = lookupField (spreadFields t) k) := by
  refine ⟨⟨?_, ?_, ?_⟩, ?_, ?_, ?_⟩
  · rw [loadMigrateElem_fst]
    show lookupField _ "id" = _
    rw [lookupField_objInsert_other (by decide : ¬ "createdAt" = "id"),
      lookupField_objInsert_self]
  · rw [loadMigrateElem_fst]
    show lookupField _ "createdAt" = _
    rw [lookupField_objInsert_self]
  · intro k hk1 hk2
    rw [loadMigrateElem_fst]
    show lookupField _ k = _
    rw [lookupField_objInsert_other (fun h => hk2 h.symm),
      lookupField_objInsert_other (fun h => hk1 h.symm)]
  · rw [importMigrateElem_fst]
    show lookupField _ "id" = _
    rw [lookupField_objInsert_other (by decide : ¬ "isCompleted" = "id"),
      lookupField_objInsert_self]
  · rw [importMigrateElem_fst]
    show lookupField _ "isCompleted" = _
    rw [lookupField_objInsert_self]
  · intro k hk1 hk2
    rw [importMigrateElem_fst]
    show lookupField _ k = _
    rw [lookupField_objInsert_other (fun h => hk2 h.symm),
      lookupField_objInsert_other (fun h => hk1 h.symm)]

theorem c2_migration_fields_witness :
    jsGet (loadMigrateElem envC gC (Json.obj [("title", Json.str "x")])).1 "title" =
      lookupField (spreadFields (Json.obj [("title", Json.str "x")])) "title" :=
  (c2_migration_fields envC gC (Json.obj [("title", Json.str "x")])).1.2.2 "title"
    (by decide) (by decide)

/-- C2 counterexample to the original claim: the import path does not backfill
createdAt — a record with no createdAt field is migrated to a record still
lacking it — and the storage-load path does not coerce isCompleted — a numeric
flag survives as a number, not a strict boolean. -/
theorem c2_migration_counterexample :
    jsGet (importMigrateElem envC gC (Json.obj [])).1 "createdAt" = none ∧
    jsGet (loadMigrateElem envC gC (Json.obj [("id", Json.str "a"),
      ("createdAt", Json.num 1), ("isCompleted", Json.num 1)])).1 "isCompleted" =
      some (Json.num 1) := by
  exact ⟨rfl, rfl⟩

/-- C3 (amended): whenever the trimmed import code does not decode to a
top-level JSON array — corrupt base64, corrupt percent escape, invalid JSON,
or a non-array value — the collection and generator state are left exactly as
they were; the outcome is reported as a failure when the trimmed input is
nonempty, but a whitespace-only input is silently ignored (a no-op, not a
failure) even though its decode would also fail. -/
theorem c3_decode_failure (env : GenEnv) (g : GenState) (s : String) (tasks : List Json)
    (hfail : ∀ items, ¬ decodeSyncCode (jsTrim s.data) = some (Json.arr items)) :
    (handleImport env s tasks g).1 = (tasks, g) ∧
    (jsTrim s.data = [] → (handleImport env s tasks g).2 = ImportOutcome.noop) ∧
    (¬ jsTrim s.data = [] → (handleImport env s tasks g).2 = ImportOutcome.failed) := by
  by_cases htrim : jsTrim s.data = []
  · rw [handleImport, if_pos htrim]
    exact ⟨rfl, fun _ => rfl, fun hn => absurd htrim hn⟩
  · rw [handleImport, if_neg htrim]
    cases hdec : decodeSyncCode (jsTrim s.data) with
    | none => exact ⟨rfl, fun he => absurd he htrim, fun _ => rfl⟩
    | some v =>
      cases v with
      | arr items => exact absurd hdec (hfail items)
      | null => exact ⟨rfl, fun he => absurd he htrim, fun _ => rfl⟩
      | bool b => exact ⟨rfl, fun he => absurd he htrim, fun _ => rfl⟩
      | num n => exact ⟨rfl, fun he => absurd he htrim, fun _ => rfl⟩
      | str s2 => exact ⟨rfl, fun he => absurd he htrim, fun _ => rfl⟩
      | obj fs => exact ⟨rfl, fun he => absurd he htrim, fun _ => rfl⟩

theorem c3_decode_failure_witness :
    (handleImport envC "%%%" tasksC gC).1 = (tasksC, gC) ∧
    (handleImport envC "%%%" tasksC gC).2 = ImportOutcome.failed := by
  have hfail : ∀ items,
      ¬ decodeSyncCode (jsTrim ("%%%" : String).data) = some (Json.arr items) := by
    intro items h
    rw [show decodeSyncCode (jsTrim ("%%%" : String).data) = none from rfl] at h
    exact Option.noConfusion h
  exact ⟨(c3_decode_failure envC gC "%%%" tasksC hfail).1,
    (c3_decode_failure envC gC "%%%" tasksC hfail).2.2 (by decide)⟩

/-- C3 counterexample to the original claim: a whitespace-only import string
fails to decode (the pipeline ends at parsing the empty text), yet the
operation reports a silent no-op rather than a failure. -/
theorem c3_whitespace_counterexample :
    decodeSyncCode (" " : String).data = none ∧
    handleImport envC " " tasksC gC = ((tasksC, gC), ImportOutcome.noop) ∧
    ¬ ImportOutcome.noop = ImportOutcome.failed :=
  ⟨rfl, rfl, by decide⟩

/-- C4: toggling flips the isCompleted flag of exactly the tasks whose id
matches, keeps every other field and every other task unchanged position by
position, and is the identity when no task carries the id. -/
theorem c4_toggle_flips (tasks : List Task) (taskId : String) :
    ((∀ t ∈ tasks, ¬ t.id = taskId) → toggleTask taskId tasks = tasks) ∧
    ∀ i : Nat, (toggleTask taskId tasks)[i]? = (tasks[i]?).map
      (fun t => if t.id = taskId then { t with isCompleted := !t.isCompleted } else t) := by
  constructor
  · intro h
    rw [toggleTask]
    have hmap : ∀ l : List Task, (∀ t ∈ l, ¬ t.id = taskId) →
        l.map (fun t => if t.id = taskId then { t with isCompleted := !t.isCompleted }
          else t) = l := by
      intro l
      induction l with
      | nil => intro _; rfl
      | cons t rest ih =>
        intro hl
        rw [List.map_cons, if_neg (hl t (by simp)), ih (fun x hx => hl x (by simp [hx]))]
    exact hmap tasks h
  · intro i
    rw [toggleTask, List.getElem?_map]

theorem c4_toggle_flips_witness : toggleTask "z" [taskA] = [taskA] :=
  (c4_toggle_flips [taskA] "z").1 (by decide)

/-- C5: adding a task manually is a silent no-op when the trimmed title is
empty; otherwise it prepends exactly one task carrying the trimmed title, a
fresh generated id, isCompleted false and the current time, with the prior
tasks unchanged in order. -/
theorem c5_manual_add (env : GenEnv) (g : GenState) (title assignee : String)
    (priority : Priority) (tasks : List Task) :
    (jsTrim title.data = [] →
      handleManualAdd env g title assignee priority tasks = ⟨tasks, g, false⟩) ∧
    (¬ jsTrim title.data = [] →
      handleManualAdd env g title assignee priority tasks =
        ⟨{ id := (generateId env g).1,
           title := String.mk (jsTrim title.data),
           description := none,
           assignee := assignee,
           priority := priority,
           isCompleted := false,
           createdAt := env.now } :: tasks,
          (generateId env g).2, true⟩) := by
  constructor
  · intro h
    rw [handleManualAdd, if_pos h]
  · intro h
    rw [handleManualAdd, if_neg h]

theorem c5_manual_add_witness :
    handleManualAdd envC gC "   " "Anna" Priority.medium [] = ⟨[], gC, false⟩ ∧
    (handleManualAdd envC gC " hi " "Anna" Priority.medium []).added = true :=
  ⟨(c5_manual_add envC gC "   " "Anna" Priority.medium []).1 (by decide),
    by rw [(c5_manual_add envC gC " hi " "Anna" Priority.medium []).2 (by decide)]⟩

/-- C6: ten thousand sequential generator calls with the fallback path active
and frozen time (the environment is constant across calls) yield ten thousand
pairwise distinct ids, because the counter component, incremented before use
and wrapped modulo 10000, differs on every call. -/
theorem c6_id_uniqueness (env : GenEnv) (hcr : env.cryptoUUID = none)
    (hrand : ∀ i, ¬ '-' ∈ (env.random i).data) (s : GenState) :
    (genIds env 10000 s).length = 10000 ∧ (genIds env 10000 s).Nodup :=
  ⟨genIds_length env 10000 s, genIds_nodup env hcr hrand s (by omega)⟩

theorem c6_id_uniqueness_witness :
    (genIds envC 10000 gC).length = 10000 ∧ (genIds envC 10000 gC).Nodup :=
  c6_id_uniqueness envC rfl (fun i => by show ¬ '-' ∈ ("r" : String).data; decide) gC

/-- C7: when every change arrives within 500 ms of the previous one, each
pending save timer is cancelled by the next change, and observing the
scheduler 1000 ms after the last change finds exactly one durable write,
holding only the final collection, with the status back to saved. -/
theorem c7_debounce_coalesces (cs : List (Nat × List Task)) (hne : ¬ cs = [])
    (hch : List.Chain' (fun a b => a.1 < b.1 ∧ b.1 < a.1 + 500) cs) :
    observeAt (fun _ => false) cs ((cs.getLast hne).1 + 1000) =
      ⟨[], SaveStatus.saved,
        [((cs.getLast hne).1 + 500, SaveStatus.saving),
          ((cs.getLast hne).1 + 1000, SaveStatus.saved)],
        [(cs.getLast hne).2], [((cs.getLast hne).1 + 500, true)]⟩ := by
  cases cs with
  | nil => exact absurd rfl hne
  | cons e tl =>
    obtain ⟨t0, c0⟩ := e
    rw [observeAt, runChanges, List.foldl_cons, applyChange_init,
      fold_tight (fun _ => false) tl t0 c0 hch]
    exact advance_tight_success (fun _ => false) _ (by omega) rfl

theorem c7_debounce_coalesces_witness :
    observeAt (fun _ => false) [(0, ([] : List Task)), (100, [taskA])] 1100 =
      ⟨[], SaveStatus.saved, [(600, SaveStatus.saving), (1100, SaveStatus.saved)],
        [[taskA]], [(600, true)]⟩ :=
  c7_debounce_coalesces [(0, []), (100, [taskA])] (by simp)
    (List.chain'_pair.mpr ⟨by decide, by decide⟩)

/-- C8: whatever the pattern of changes and write failures, if the most recent
write attempt failed then the observed status is error, the log ends with the
saving-then-error transition of that attempt, and no deferred flip back to
saved is pending — the error persists until a later change triggers a write
that succeeds. -/
theorem c8_error_persists (failAt : Nat → Bool) (cs : List (Nat × List Task)) (T w : Nat)
    (hch : List.Chain' (fun a b => a.1 < b.1) cs) (hT : ∀ e ∈ cs, e.1 ≤ T)
    (hw : (observeAt failAt cs T).attempts.getLast? = some (w, false)) :
    (observeAt failAt cs T).status = SaveStatus.error ∧
    (∀ p ∈ (observeAt failAt cs T).timers, isSaveTimer p = true) ∧
    ∃ pre, (observeAt failAt cs T).statusLog =
      pre ++ [(w, SaveStatus.saving), (w, SaveStatus.error)] := by
  have h1 := runChanges_inv failAt cs 0 initSched (initSched_inv 0) hch
    (fun e _ => Nat.zero_le _)
  have h2 : lastTimeFrom 0 cs ≤ T := lastTimeFrom_le cs 0 hT (Nat.zero_le T)
  have h3 := advance_inv failAt (runChanges failAt cs) h1 h2
  exact h3.failInv w hw

theorem c8_error_persists_witness :
    (observeAt (fun _ => true) [(0, ([] : List Task))] 600).status = SaveStatus.error ∧
    (∀ p ∈ (observeAt (fun _ => true) [(0, ([] : List Task))] 600).timers,
      isSaveTimer p = true) ∧
    ∃ pre, (observeAt (fun _ => true) [(0, ([] : List Task))] 600).statusLog =
      pre ++ [(500, SaveStatus.saving), (500, SaveStatus.error)] :=
  c8_error_persists (fun _ => true) [(0, [])] 600 500 (by simp) (by decide) (by rfl)

/-- C9: toggling preserves the length and the id sequence (hence the relative
order) of the collection, and deletion keeps exactly the tasks whose id
differs — every match is removed, every non-match kept — as an order-preserving
sublist. -/
theorem c9_toggle_delete_order (tasks : List Task) (taskId : String) :
    (toggleTask taskId tasks).length = tasks.length ∧
    (toggleTask taskId tasks).map Task.id = tasks.map Task.id ∧
    (∀ t ∈ deleteTask taskId tasks, ¬ t.id = taskId) ∧
    List.Sublist (deleteTask taskId tasks) tasks ∧
    (∀ t ∈ tasks, ¬ t.id = taskId → t ∈ deleteTask taskId tasks) := by
  refine ⟨by simp [toggleTask], ?_, ?_, ?_, ?_⟩
  · rw [toggleTask, List.map_map]
    have hfun : (Task.id ∘ fun t : Task =>
        if t.id = taskId then { t with isCompleted := !t.isCompleted } else t) =
        Task.id := by
      funext t
      by_cases h : t.id = taskId <;> simp [Function.comp, h]
    rw [hfun]
  · intro t ht
    rw [deleteTask] at ht
    have := List.of_mem_filter ht
    simpa using this
  · exact List.filter_sublist _
  · intro t ht hne
    rw [deleteTask]
    refine List.mem_filter.mpr ⟨ht, ?_⟩
    simpa using hne

theorem c9_toggle_delete_order_witness : taskA ∈ deleteTask "z" [taskA] :=
  (c9_toggle_delete_order [taskA] "z").2.2.2.2 taskA (by simp) (by decide)

/-- C10: the completed and pending counts partition the collection, so the
percentage guard (completed + pending greater than zero) coincides with the
collection being nonempty; the empty collection displays 0 without dividing,
and a nonempty one divides by twice its length, which is positive; for every
participant, completed plus pending equals the total. -/
theorem c10_dashboard_stats (tasks : List Task) :
    totalCompleted tasks + totalPending tasks = tasks.length ∧
    (tasks = [] → overallPercent tasks = 0) ∧
    (0 < tasks.length →
      0 < 2 * (totalCompleted tasks + totalPending tasks) ∧
      overallPercent tasks = (200 * totalCompleted tasks + tasks.length) /
        (2 * tasks.length)) ∧
    ∀ sister, (statsFor tasks sister).completed + (statsFor tasks sister).pending =
      (statsFor tasks sister).total := by
  have hpart : totalCompleted tasks + totalPending tasks = tasks.length :=
    filter_length_partition (fun t => t.isCompleted) tasks
  refine ⟨hpart, ?_, ?_, ?_⟩
  · intro h
    subst h
    rfl
  · intro hlen
    refine ⟨by omega, ?_⟩
    rw [overallPercent, if_pos (by omega), hpart]
  · intro sister
    exact filter_length_partition (fun t => t.isCompleted)
      (tasks.filter (fun t => t.assignee == sister))

theorem c10_dashboard_stats_witness :
    overallPercent ([] : List Task) = 0 ∧
    0 < 2 * (totalCompleted [taskA] + totalPending [taskA]) :=
  ⟨(c10_dashboard_stats []).2.1 rfl, ((c10_dashboard_stats [taskA]).2.2.1 (by decide)).1⟩

end SisterSync
